import Mathlib

/-!
Verification of the hongkong-transit-notice reconciliation engine.

The definitions below are a shallow embedding of the repository's
TypeScript source:
  * `storage.ts` — the notice store (nested JSON object persisted to
    `data/metadata.json`, read fully and rewritten fully on each mutation);
  * `scrapers/kmb.ts` / `scrapers/ctb.ts` — the per-operator
    reconciliation pass (the two scrapers share one body up to the
    operator constant and HTTP details, which are abstracted here as
    input data and a download-success oracle).

JavaScript objects are modelled as insertion-ordered association lists
(`alGet` returns the first binding, `alPut` updates the first binding in
place or appends a new one at the end, matching JS object key order).
JavaScript `Date` values are modelled by the observations the code makes
of them: an opaque timestamp plus `getFullYear`/`getMonth` projections.
Exceptions are modelled by an explicit success flag: the persisted state
component of a failed operation is the state at the time of the throw,
which equals the entry state because `saveMetadata` is the only write
and is never reached on the throwing paths.
-/

/-- Model of a JS `Date` as observed by the code: `time` stands for the
instant (used for `lastSeenAt` / `discoveredAt`), `year` for
`getFullYear()` and `monthIndex` for `getMonth()` (0-based, as in JS). -/
structure Date where
  time : Nat
  year : Nat
  monthIndex : Nat
deriving DecidableEq, Repr

/-- The `Notice` record of `types.ts`. -/
structure Notice where
  id : String
  pdfUrl : String
  route : String
  discoveredAt : Date
  isActive : Bool
  lastSeenAt : Option Date := none
deriving DecidableEq, Repr

/-- Innermost level of the persisted metadata: noticeId → Notice. -/
abbrev RouteMap := List (String × Notice)

/-- Middle level: route → RouteMap. -/
abbrev CompanyMap := List (String × RouteMap)

/-- The persisted metadata object of `storage.ts`:
companyCode → route → noticeId → Notice. -/
abbrev Metadata := List (String × CompanyMap)

/-- First binding for a key in a JS-object-as-association-list. -/
def alGet {α : Type} : List (String × α) → String → Option α
  | [], _ => none
  | (k, v) :: rest, key => if k = key then some v else alGet rest key

/-- JS object assignment: overwrite the first binding in place, or append
a new binding at the end (JS insertion-order semantics). -/
def alPut {α : Type} : List (String × α) → String → α → List (String × α)
  | [], key, v => [(key, v)]
  | (k, w) :: rest, key, v =>
      if k = key then (k, v) :: rest else (k, w) :: alPut rest key v

/-- `metadata[c]?.[r]?.[i]` — the optional-chained triple lookup. -/
def mGet (m : Metadata) (c r i : String) : Option Notice :=
  (alGet m c).bind fun cd => (alGet cd r).bind fun rm => alGet rm i

/-- The ensure-then-assign pattern of `addNotice`: materialise the company
and route objects if absent, then set the notice record. -/
def mSet (m : Metadata) (c r i : String) (n : Notice) : Metadata :=
  let cd := (alGet m c).getD []
  let rm := (alGet cd r).getD []
  alPut m c (alPut cd r (alPut rm i n))

/-- In-place mutation of an existing record (the
`metadata[c][r][i].field = v` pattern); no effect when absent. -/
def mUpd (m : Metadata) (c r i : String) (f : Notice → Notice) : Metadata :=
  match alGet m c with
  | none => m
  | some cd =>
    match alGet cd r with
    | none => m
    | some rm =>
      match alGet rm i with
      | none => m
      | some rec => alPut m c (alPut cd r (alPut rm i (f rec)))

/-- `storage.noticeExistsInMetadata`. -/
def noticeExistsInMetadata (m : Metadata) (c r i : String) : Bool :=
  (mGet m c r i).isSome

/-- JS `Set.add`: append if not already present (insertion order kept). -/
def setInsert (l : List String) (k : String) : List String :=
  if k ∈ l then l else l ++ [k]

/-- `storage.getActiveNotices`: iterate the company's routes and notice
ids in insertion order and collect `route ++ ":" ++ noticeId` keys of
records with `isActive`, into a JS `Set` (here an insertion-ordered
duplicate-free list). -/
def getActiveNotices (m : Metadata) (c : String) : List String :=
  let cd := (alGet m c).getD []
  cd.foldl
    (fun acc rp =>
      rp.2.foldl
        (fun acc2 ip =>
          if ip.2.isActive then setInsert acc2 (rp.1 ++ ":" ++ ip.1) else acc2)
        acc)
    []

/-- `storage.addNotice`. The document download is abstracted by the
`dlOk` oracle value: `downloadPdf` either succeeds or throws. On the
throwing path `saveMetadata` is never reached, so the persisted state is
the entry state; the returned flag records success. On the existing-key
path the record's `lastSeenAt` and `isActive` are rewritten and the state
saved. On the new-key path the fetched notice is stored with
`discoveredAt` overwritten by the run date (the code mutates
`notice.discoveredAt = date` before assignment). -/
def addNotice (m : Metadata) (c : String) (n : Notice) (date : Date)
    (dlOk : Bool) : Metadata × Bool :=
  match mGet m c n.route n.id with
  | none =>
      if dlOk then
        (mSet m c n.route n.id { n with discoveredAt := date }, true)
      else
        (m, false)
  | some ex =>
      (mSet m c n.route n.id { ex with lastSeenAt := some date, isActive := true }, true)

/-- `storage.markInactive`: guarded by the optional-chained existence
check; saves only when the record exists (flag = whether a save
happened). -/
def markInactive (m : Metadata) (c r i : String) : Metadata × Bool :=
  match mGet m c r i with
  | some _ => (mUpd m c r i (fun x => { x with isActive := false }), true)
  | none => (m, false)

/-- `storage.updateLastSeen`: sets `lastSeenAt` (and nothing else) when
the record exists; no save otherwise. -/
def updateLastSeen (m : Metadata) (c r i : String) (d : Date) : Metadata × Bool :=
  match mGet m c r i with
  | some _ => (mUpd m c r i (fun x => { x with lastSeenAt := some d }), true)
  | none => (m, false)

/-- One route's normalized fetch result, as produced by
`fetchKMBNotices` / `fetchCTBNotices`: the route id and the
`(noticeId, pdfUrl)` pairs the source reports for it. -/
structure SourceRoute where
  route : String
  notices : List (String × String)
deriving DecidableEq, Repr

/-- The `Notice` object the scraper builds for a fetched entry
(`isActive: true`, `discoveredAt: new Date()`, no `lastSeenAt`); the
`discoveredAt` placed here is overwritten by `addNotice` before anything
is persisted, so the run date is used for it. -/
def mkFetchedNotice (route : String) (nu : String × String) (d : Date) : Notice :=
  { id := nu.1, pdfUrl := nu.2, route := route, discoveredAt := d,
    isActive := true, lastSeenAt := none }

/-- The inner per-notice loop of `scrapeKMB` / `scrapeCTB`: add the key to
`seen`, then insert (new) or touch (existing). A download failure inside
`addNotice` throws; the per-route `try` catches it, so the remaining
notices of this route are skipped while state and `seen` keep the effects
so far (the failing notice's key is already in `seen`). -/
def processNotices (c : String) (now : Date) (dl : String → String → Bool)
    (route : String) :
    List (String × String) → Metadata → List String → Metadata × List String
  | [], m, seen => (m, seen)
  | nu :: rest, m, seen =>
      let n := mkFetchedNotice route nu now
      let key := route ++ ":" ++ n.id
      let seen' := setInsert seen key
      if noticeExistsInMetadata m c route n.id then
        processNotices c now dl route rest (updateLastSeen m c route n.id now).1 seen'
      else
        match addNotice m c n now (dl route n.id) with
        | (m', true) => processNotices c now dl route rest m' seen'
        | (m', false) => (m', seen')

/-- The retirement key decoding of the scrapers:
`const [route, noticeId] = activeNotice.split(":")`. Splitting on a
character, JS-style (always at least one segment). -/
def splitCh (c : Char) : List Char → List (List Char)
  | [] => [[]]
  | x :: xs =>
      if x = c then [] :: splitCh c xs
      else
        match splitCh c xs with
        | [] => [[x]]
        | y :: ys => (x :: y) :: ys

/-- Destructuring the split result into the first two segments. When the
key has no colon the second variable is JS `undefined`, which an object
index coerces to the string "undefined". -/
def decodeKey (s : String) : String × String :=
  match splitCh ':' s.data with
  | r :: i :: _ => (String.mk r, String.mk i)
  | [r] => (String.mk r, "undefined")
  | [] => ("", "undefined")

/-- The retirement loop of `scrapeKMB` / `scrapeCTB`: every key of the
pre-run active snapshot that is not in `seen` is decoded and
`markInactive`d. -/
def retireUnseen (c : String) (seen : List String) (snapshot : List String)
    (m : Metadata) : Metadata :=
  snapshot.foldl
    (fun mm k => if k ∈ seen then mm else
      (markInactive mm c (decodeKey k).1 (decodeKey k).2).1)
    m

/-- The shared body of `scrapeKMB` and `scrapeCTB` applied to an
already-capped route list: snapshot the active keys, process every
route's notices (route-level failures isolated), then retire unseen
snapshot keys. Returns the final persisted state and the run's `seen`
set. -/
def scrapeRun (c : String) (now : Date) (dl : String → String → Bool)
    (routes : List SourceRoute) (m : Metadata) : Metadata × List String :=
  let snapshot := getActiveNotices m c
  let step := routes.foldl
    (fun acc rd => processNotices c now dl rd.route rd.notices acc.1 acc.2)
    (m, [])
  (retireUnseen c step.2 snapshot step.1, step.2)

/-- The capped variant (`routes.slice(0, 10)` in `scrapeCTB` and the
second `scrapeKMB` variant). -/
def scrapeRunCapped (c : String) (now : Date) (dl : String → String → Bool)
    (routes : List SourceRoute) (m : Metadata) : Metadata × List String :=
  scrapeRun c now dl (routes.take 10) m

/-- Boolean list-prefix test (used to build the substring and suffix
tests that model JS `String.includes` / `String.endsWith`). -/
def listHasPre : List Char → List Char → Bool
  | [], _ => true
  | _ :: _, [] => false
  | a :: ps, b :: ls => a = b && listHasPre ps ls

/-- Boolean contiguous-sublist test: does `p` occur somewhere in the
second list? -/
def listHasSub (p : List Char) : List Char → Bool
  | [] => listHasPre p []
  | l@(_ :: rest) => listHasPre p l || listHasSub p rest

/-- JS `hay.includes(needle)`. -/
def strIncludes (needle hay : String) : Bool :=
  listHasSub needle.data hay.data

/-- JS `hay.endsWith(needle)`: the needle is a prefix of the reversed
string. -/
def strEndsWith (needle hay : String) : Bool :=
  listHasPre needle.data.reverse hay.data.reverse

/-- JS `s.padStart(2, "0")`. -/
def padStart2 (s : String) : String :=
  if s.data.length ≥ 2 then s
  else String.mk (List.replicate (2 - s.data.length) '0' ++ s.data)

/-- `generatePdfPath` of `storage.ts`: `path.join(DATA_DIR, company.code,
route, year, month, filename)` where `year = getFullYear()`,
`month = String(getMonth() + 1).padStart(2, "0")` and `filename` keeps
`noticeId` as-is when it already `includes(".pdf")`, otherwise appends
`".pdf"`. `path.join` on these plain segments is "/"-interleaving; the
data root is passed in as `dataDir`. -/
def generatePdfPath (dataDir code route noticeId : String) (date : Date) : String :=
  let year := toString date.year
  let month := padStart2 (toString (date.monthIndex + 1))
  let filename := if strIncludes ".pdf" noticeId then noticeId else noticeId ++ ".pdf"
  dataDir ++ "/" ++ code ++ "/" ++ route ++ "/" ++ year ++ "/" ++ month ++ "/" ++ filename

/-- The three observable conditions of the persisted metadata file:
missing (`readFile` throws), present but not JSON (`JSON.parse` throws),
or parsed content. -/
inductive FileContent where
  | absent
  | unparsable
  | parsed (m : Metadata)
deriving DecidableEq, Repr

/-- `storage.getMetadata`: the catch-all around `readFile` + `JSON.parse`
turns a missing or unparsable file into the empty object. -/
def getMetadata : FileContent → Metadata
  | .absent => []
  | .unparsable => []
  | .parsed m => m

/-- `storage.getActiveNotices` as called, reading through the file. -/
def getActiveNoticesFromFile (f : FileContent) (c : String) : List String :=
  getActiveNotices (getMetadata f) c

/-- `storage.noticeExistsInMetadata` as called, reading through the
file. -/
def noticeExistsInMetadataFromFile (f : FileContent) (c r i : String) : Bool :=
  noticeExistsInMetadata (getMetadata f) c r i

/-- Key-uniqueness of one JS-object level: no duplicate keys. -/
abbrev wfAl {α : Type} (l : List (String × α)) : Prop := (l.map Prod.fst).Nodup

/-- Well-formedness of the persisted metadata: every object level has
unique keys. Always true of states produced by `JSON.parse` (a JS object
holds one binding per key). -/
abbrev wfMeta (m : Metadata) : Prop :=
  wfAl m ∧ ∀ p ∈ m, wfAl p.2 ∧ ∀ q ∈ p.2, wfAl q.2

/-- The universe of `route ++ ":" ++ noticeId` keys a route list can ever
contribute to a run's `seen` set (every key the per-notice loop would
form, failure or not). -/
def allKeys (rs : List SourceRoute) : List String :=
  rs.flatMap (fun rd => rd.notices.map (fun nu => rd.route ++ ":" ++ nu.1))

/-- One store mutation, as exported by the `storage` object: `addNotice`
(with its download outcome), `updateLastSeen` or `markInactive`. -/
inductive StoreOp where
  | add (c : String) (n : Notice) (d : Date) (dlOk : Bool)
  | touch (c r i : String) (d : Date)
  | retire (c r i : String)
deriving DecidableEq, Repr

/-- Apply one store mutation to the persisted state. -/
def applyOp (m : Metadata) : StoreOp → Metadata
  | .add c n d dlOk => (addNotice m c n d dlOk).1
  | .touch c r i d => (updateLastSeen m c r i d).1
  | .retire c r i => (markInactive m c r i).1

/-- Apply a sequence of store mutations in order. -/
def applyOps (m : Metadata) : List StoreOp → Metadata
  | [] => m
  | op :: rest => applyOps (applyOp m op) rest

/-- A sample run timestamp for concrete evaluations. -/
def sampleDate : Date := { time := 100, year := 2024, monthIndex := 0 }

/-- A sample stored notice record for concrete evaluations. -/
def sampleNotice (r i : String) (act : Bool) : Notice :=
  { id := i, pdfUrl := "u", route := r,
    discoveredAt := { time := 1, year := 2023, monthIndex := 5 },
    isActive := act }

theorem mem_setInsert_self (l : List String) (k : String) : k ∈ setInsert l k := by
  unfold setInsert
  split
  · assumption
  · simp

theorem mem_setInsert_of_mem (l : List String) (k k' : String) (h : k ∈ l) :
    k ∈ setInsert l k' := by
  unfold setInsert
  split
  · exact h
  · simp [h]

theorem mem_seen_processNotices (c : String) (now : Date) (dl : String → String → Bool)
    (route : String) (ns : List (String × String)) (m : Metadata) (seen : List String)
    (k : String) (h : k ∈ seen) :
    k ∈ (processNotices c now dl route ns m seen).2 := by
  induction ns generalizing m seen with
  | nil => exact h
  | cons nu rest ih =>
      simp only [processNotices]
      split
      · exact ih _ _ (mem_setInsert_of_mem _ _ _ h)
      · split
        · exact ih _ _ (mem_setInsert_of_mem _ _ _ h)
        · exact mem_setInsert_of_mem _ _ _ h

/-- C1: the claim states that `touch` (`updateLastSeen`) sets
`lastSeenAt` to the observation timestamp AND forces `isActive = true`,
so a retired notice reported again becomes active. The code's
`updateLastSeen` only assigns `lastSeenAt`: evaluated on a store holding
an inactive record, the record's `lastSeenAt` is updated but `isActive`
stays `false`, so a reappeared notice is never reactivated. -/
theorem c1_updateLastSeen_leaves_inactive :
    (mGet (updateLastSeen [("KMB", [("1", [("N1", sampleNotice "1" "N1" false)])])]
        "KMB" "1" "N1" sampleDate).1 "KMB" "1" "N1").map Notice.lastSeenAt
      = some (some sampleDate)
    ∧ (mGet (updateLastSeen [("KMB", [("1", [("N1", sampleNotice "1" "N1" false)])])]
        "KMB" "1" "N1" sampleDate).1 "KMB" "1" "N1").map Notice.isActive
      = some false := by decide

/-- C3: inserting a brand-new notice whose document download fails
persists nothing: `downloadPdf` throws before `saveMetadata` is reached,
so the stored state after the failed `addNotice` equals the state before
it and the operation reports failure. -/
theorem c3_addNotice_download_failure_is_noop (m : Metadata) (c : String)
    (n : Notice) (d : Date) (h : mGet m c n.route n.id = none) :
    addNotice m c n d false = (m, false) := by
  unfold addNotice
  rw [h]
  rfl

theorem c3_witness :
    mGet [] "KMB" (sampleNotice "1" "A" true).route (sampleNotice "1" "A" true).id = none
    ∧ addNotice [] "KMB" (sampleNotice "1" "A" true) sampleDate false = ([], false) :=
  ⟨by decide,
    c3_addNotice_download_failure_is_noop [] "KMB" (sampleNotice "1" "A" true) sampleDate
      (by decide)⟩

/-- C5 (counterexample): the claim states a notice's key enters the
in-memory `seen` set only when its persistence mutation succeeded. On an
empty store with one reported notice whose download fails, the mutation
fails (the store stays empty), yet the run's `seen` set contains the
notice's key — the key is added before the mutation is attempted. -/
theorem c5_counterexample :
    (scrapeRun "KMB" sampleDate (fun _ _ => false)
        [{ route := "1", notices := [("A", "u")] }] []).2 = ["1:A"]
    ∧ (scrapeRun "KMB" sampleDate (fun _ _ => false)
        [{ route := "1", notices := [("A", "u")] }] []).1 = [] := by decide

/-- C5 (amended): the scraper adds a notice's key to `seen` before
attempting the mutation, so the key is in the run's `seen` set whether or
not the mutation succeeds (on failure the remaining notices of the route
are skipped, but the failed notice's key stays in `seen`). Stated for the
notice at the head of a route's list: its key is always in the resulting
`seen` set, for every store state and download outcome. -/
theorem c5_seen_added_before_mutation (c : String) (now : Date)
    (dl : String → String → Bool) (route : String) (nu : String × String)
    (rest : List (String × String)) (m : Metadata) (seen : List String) :
    (route ++ ":" ++ nu.1) ∈ (processNotices c now dl route (nu :: rest) m seen).2 := by
  simp only [processNotices]
  split
  · exact mem_seen_processNotices _ _ _ _ _ _ _ _ (mem_setInsert_self _ _)
  · split
    · exact mem_seen_processNotices _ _ _ _ _ _ _ _ (mem_setInsert_self _ _)
    · exact mem_setInsert_self _ _

/-- C8: when the metadata file is missing or cannot be parsed,
`getMetadata` returns the empty object instead of failing, so
`getActiveNotices` yields the empty set and `noticeExistsInMetadata`
yields false for every key. -/
theorem c8_missing_file_reads_as_empty (c r i : String) :
    getActiveNoticesFromFile .absent c = []
    ∧ getActiveNoticesFromFile .unparsable c = []
    ∧ noticeExistsInMetadataFromFile .absent c r i = false
    ∧ noticeExistsInMetadataFromFile .unparsable c r i = false :=
  ⟨rfl, rfl, rfl, rfl⟩

/-- C9: `markInactive` and `updateLastSeen` on a key with no record are
silent no-ops: the guard fails, `saveMetadata` is not called, no error is
raised, and the returned state is the input state. -/
theorem c9_missing_key_mutations_are_noops (m : Metadata) (c r i : String) (d : Date)
    (h : mGet m c r i = none) :
    markInactive m c r i = (m, false) ∧ updateLastSeen m c r i d = (m, false) := by
  constructor
  · unfold markInactive
    rw [h]
  · unfold updateLastSeen
    rw [h]

theorem c9_witness :
    mGet [("KMB", [])] "KMB" "1" "N9" = none
    ∧ (markInactive [("KMB", [])] "KMB" "1" "N9" = ([("KMB", [])], false)
        ∧ updateLastSeen [("KMB", [])] "KMB" "1" "N9" sampleDate = ([("KMB", [])], false)) :=
  ⟨by decide, c9_missing_key_mutations_are_noops [("KMB", [])] "KMB" "1" "N9" sampleDate (by decide)⟩

theorem listHasPre_refl (l : List Char) : listHasPre l l = true := by
  induction l with
  | nil => rfl
  | cons x xs ih => simp [listHasPre, ih]

theorem listHasPre_append (p t : List Char) : listHasPre p (p ++ t) = true := by
  induction p with
  | nil => rfl
  | cons a ps ih => simp [listHasPre, List.cons_append, ih]

theorem listHasSub_append_left (p t : List Char) : listHasSub p (p ++ t) = true := by
  cases p with
  | nil =>
      cases t with
      | nil => rfl
      | cons y ys => simp [listHasSub, listHasPre]
  | cons x xs =>
      have hpre : listHasPre (x :: xs) ((x :: xs) ++ t) = true := listHasPre_append _ _
      simp only [List.cons_append] at hpre ⊢
      simp [listHasSub, hpre]

theorem listHasSub_cons (p : List Char) (x : Char) (l : List Char)
    (h : listHasSub p l = true) : listHasSub p (x :: l) = true := by
  simp only [listHasSub]
  cases l with
  | nil =>
      cases p with
      | nil => simp [listHasPre]
      | cons a ps => simp [listHasSub, listHasPre] at h
  | cons y ys => simp [h]

theorem listHasSub_of_append (p a : List Char) : listHasSub p (a ++ p) = true := by
  induction a with
  | nil => simpa using listHasSub_append_left p []
  | cons x xs ih => exact listHasSub_cons _ _ _ ih

theorem listHasPre_iff_append (q r : List Char) :
    listHasPre q r = true ↔ ∃ t, r = q ++ t := by
  induction q generalizing r with
  | nil => simp [listHasPre]
  | cons a ps ih =>
      cases r with
      | nil =>
          simp [listHasPre]
      | cons b ls =>
          simp only [listHasPre, Bool.and_eq_true, decide_eq_true_eq, ih, List.cons_append]
          constructor
          · rintro ⟨hab, t, ht⟩
            exact ⟨t, by simp [hab, ht]⟩
          · rintro ⟨t, ht⟩
            obtain ⟨h1, h2⟩ := List.cons.inj ht
            exact ⟨h1.symm ▸ rfl, t, h2⟩

theorem strEndsWith_imp_strIncludes (needle hay : String)
    (h : strEndsWith needle hay = true) : strIncludes needle hay = true := by
  unfold strEndsWith at h
  unfold strIncludes
  obtain ⟨t, ht⟩ := (listHasPre_iff_append _ _).mp h
  have hh : hay.data = t.reverse ++ needle.data := by
    have := congrArg List.reverse ht
    simpa using this
  rw [hh]
  exact listHasSub_of_append _ _

/-- C7 (counterexample): the claim states the `.pdf` suffix is appended
exactly when `noticeId` does not already END in `.pdf`. The code instead
tests `noticeId.includes(".pdf")`: for `noticeId = "a.pdf.txt"`, which
does not end in `.pdf`, the claim demands filename `a.pdf.txt.pdf`, but
the code leaves the filename as `a.pdf.txt`. -/
theorem c7_counterexample :
    strEndsWith ".pdf" "a.pdf.txt" = false
    ∧ generatePdfPath "data" "KMB" "1" "a.pdf.txt" sampleDate
        = "data/KMB/1/2024/01/a.pdf.txt"
    ∧ "data/KMB/1/2024/01/a.pdf.txt" ≠ "data/KMB/1/2024/01/a.pdf.txt.pdf" := by decide

/-- C7 (amended): the storage path is the deterministic pure function
`dataDir/code/route/year/paddedMonth/filename` of
`(code, route, noticeId, observedAt)`, where the `.pdf` suffix is
appended exactly when `noticeId` does not already CONTAIN `.pdf` as a
substring (JS `includes`, not `endsWith`); in particular whenever
`noticeId` already ends in `.pdf` no suffix is appended, since an ending
occurrence is an occurrence. -/
theorem c7_path_structure_and_suffix_rule (dataDir code route noticeId : String)
    (d : Date) :
    generatePdfPath dataDir code route noticeId d
      = dataDir ++ "/" ++ code ++ "/" ++ route ++ "/" ++ toString d.year ++ "/"
        ++ padStart2 (toString (d.monthIndex + 1)) ++ "/"
        ++ (if strIncludes ".pdf" noticeId then noticeId else noticeId ++ ".pdf")
    ∧ (strEndsWith ".pdf" noticeId = true → strIncludes ".pdf" noticeId = true) :=
  ⟨rfl, strEndsWith_imp_strIncludes _ _⟩

theorem c7_witness :
    strIncludes ".pdf" "n.pdf" = true
    ∧ generatePdfPath "data" "KMB" "1" "n.pdf" sampleDate
        = "data" ++ "/" ++ "KMB" ++ "/" ++ "1" ++ "/" ++ toString sampleDate.year ++ "/"
          ++ padStart2 (toString (sampleDate.monthIndex + 1)) ++ "/"
          ++ (if strIncludes ".pdf" "n.pdf" then "n.pdf" else "n.pdf" ++ ".pdf") :=
  ⟨(c7_path_structure_and_suffix_rule "data" "KMB" "1" "n.pdf" sampleDate).2 (by decide),
    (c7_path_structure_and_suffix_rule "data" "KMB" "1" "n.pdf" sampleDate).1⟩

/-- C2 (counterexample): the claim states that a previously active notice
on a route outside the capped first-10 subset is left unchanged (not
retired) by the run. With 11 reported routes and an active record on the
11th route, that record's key is never added to `seen`, and the
retirement loop — which iterates over ALL previously active notices, not
only those of processed routes — marks it inactive. -/
theorem c2_counterexample :
    "R11" ∉ ((((List.range 10).map
        (fun k => ({ route := "R" ++ toString (k + 1), notices := [] } : SourceRoute)))
        ++ [({ route := "R11", notices := [("N1", "u")] } : SourceRoute)]).take 10).map SourceRoute.route
    ∧ (mGet [("KMB", [("R11", [("N1", sampleNotice "R11" "N1" true)])])]
        "KMB" "R11" "N1").map Notice.isActive = some true
    ∧ (mGet (scrapeRunCapped "KMB" sampleDate (fun _ _ => true)
        (((List.range 10).map
          (fun k => ({ route := "R" ++ toString (k + 1), notices := [] } : SourceRoute)))
          ++ [({ route := "R11", notices := [("N1", "u")] } : SourceRoute)])
        [("KMB", [("R11", [("N1", sampleNotice "R11" "N1" true)])])]).1
        "KMB" "R11" "N1").map Notice.isActive = some false := by decide

/-- C6 (counterexample): the claim states that two successive runs with
the same source data and run timestamp leave the state after the second
run identical to the state after the first. Starting from an empty store
with one reported notice, the first run inserts the record with no
`lastSeenAt`, and the second run sets `lastSeenAt` to the run timestamp,
so the two states differ. -/
theorem c6_counterexample :
    (scrapeRun "KMB" sampleDate (fun _ _ => true) [{ route := "1", notices := [("A", "u")] }]
        ((scrapeRun "KMB" sampleDate (fun _ _ => true)
          [{ route := "1", notices := [("A", "u")] }] []).1)).1
      ≠ (scrapeRun "KMB" sampleDate (fun _ _ => true)
          [{ route := "1", notices := [("A", "u")] }] []).1 := by decide

theorem splitCh_no_sep (c : Char) (l : List Char) (h : c ∉ l) :
    splitCh c l = [l] := by
  induction l with
  | nil => rfl
  | cons x xs ih =>
      have hx : x ≠ c := fun hxc => h (hxc ▸ List.mem_cons_self x xs)
      have hxs : c ∉ xs := fun hm => h (List.mem_cons_of_mem x hm)
      simp [splitCh, hx, ih hxs]

theorem splitCh_sep_append (c : Char) (a b : List Char) (h : c ∉ a) :
    splitCh c (a ++ c :: b) = a :: splitCh c b := by
  induction a with
  | nil => simp [splitCh]
  | cons x xs ih =>
      have hx : x ≠ c := fun hxc => h (hxc ▸ List.mem_cons_self x xs)
      have hxs : c ∉ xs := fun hm => h (List.mem_cons_of_mem x hm)
      simp [splitCh, hx, ih hxs]

theorem string_mk_data (s : String) : String.mk s.data = s := rfl

/-- C10: the retirement key codec round-trips: for any route and notice
id containing no ':' character, decoding the encoded key
`route ++ ":" ++ id` by splitting on ':' and taking the first two
segments returns exactly the original pair, so retirement targets the
record that was snapshotted as active. -/
theorem c10_key_roundtrip (r i : String) (hr : ':' ∉ r.data) (hi : ':' ∉ i.data) :
    decodeKey (r ++ ":" ++ i) = (r, i) := by
  unfold decodeKey
  have hdata : (r ++ ":" ++ i).data = r.data ++ ':' :: i.data := by
    simp [String.data_append]
  rw [hdata, splitCh_sep_append ':' r.data i.data hr, splitCh_no_sep ':' i.data hi]

theorem c10_witness :
    ':' ∉ "R11".data ∧ ':' ∉ "N1".data ∧ decodeKey ("R11" ++ ":" ++ "N1") = ("R11", "N1") :=
  ⟨by decide, by decide, c10_key_roundtrip "R11" "N1" (by decide) (by decide)⟩


theorem alGet_alPut_self {α : Type} (l : List (String × α)) (k : String) (v : α) :
    alGet (alPut l k v) k = some v := by
  induction l with
  | nil => simp [alPut, alGet]
  | cons p rest ih =>
      obtain ⟨k0, w⟩ := p
      by_cases h : k0 = k
      · simp [alPut, h, alGet]
      · simp [alPut, h, alGet, ih]

theorem alGet_alPut_ne {α : Type} (l : List (String × α)) (k k' : String) (v : α)
    (h : k' ≠ k) : alGet (alPut l k v) k' = alGet l k' := by
  have h2 : k ≠ k' := Ne.symm h
  induction l with
  | nil => simp [alPut, alGet, h2]
  | cons p rest ih =>
      obtain ⟨k0, w⟩ := p
      by_cases h0 : k0 = k
      · subst h0
        simp [alPut, alGet, h2]
      · simp [alPut, h0, alGet, ih]

theorem mGet_mSet (m : Metadata) (c r i : String) (n : Notice) (c' r' i' : String) :
    mGet (mSet m c r i n) c' r' i' =
      if c = c' ∧ r = r' ∧ i = i' then some n else mGet m c' r' i' := by
  by_cases hc : c = c'
  · subst hc
    by_cases hr : r = r'
    · subst hr
      by_cases hi : i = i'
      · subst hi
        rw [if_pos ⟨rfl, rfl, rfl⟩]
        unfold mSet mGet
        rw [alGet_alPut_self, Option.some_bind, alGet_alPut_self, Option.some_bind,
          alGet_alPut_self]
      · rw [if_neg (by simp [hi])]
        unfold mSet mGet
        rw [alGet_alPut_self, Option.some_bind, alGet_alPut_self, Option.some_bind,
          alGet_alPut_ne _ _ _ _ (Ne.symm hi)]
        cases e1 : alGet m c with
        | none => simp [e1, alGet]
        | some cd =>
            cases e2 : alGet cd r with
            | none => simp [e1, e2, alGet]
            | some rm => simp [e1, e2]
    · rw [if_neg (by simp [hr])]
      unfold mSet mGet
      rw [alGet_alPut_self, Option.some_bind, alGet_alPut_ne _ _ _ _ (Ne.symm hr)]
      cases e1 : alGet m c with
      | none => simp [e1, alGet]
      | some cd => simp [e1]
  · rw [if_neg (by simp [hc])]
    unfold mSet mGet
    rw [alGet_alPut_ne _ _ _ _ (Ne.symm hc)]

theorem mGet_mUpd (m : Metadata) (c r i : String) (f : Notice → Notice) (c' r' i' : String) :
    mGet (mUpd m c r i f) c' r' i' =
      if c = c' ∧ r = r' ∧ i = i' then (mGet m c r i).map f else mGet m c' r' i' := by
  unfold mUpd
  cases e1 : alGet m c with
  | none =>
      dsimp only
      split
      · next hkey =>
          obtain ⟨hc, hr, hi⟩ := hkey
          subst hc; subst hr; subst hi
          simp [mGet, e1]
      · rfl
  | some cd =>
      dsimp only
      cases e2 : alGet cd r with
      | none =>
          dsimp only
          split
          · next hkey =>
              obtain ⟨hc, hr, hi⟩ := hkey
              subst hc; subst hr; subst hi
              simp [mGet, e1, e2]
          · rfl
      | some rm =>
          dsimp only
          cases e3 : alGet rm i with
          | none =>
              dsimp only
              split
              · next hkey =>
                  obtain ⟨hc, hr, hi⟩ := hkey
                  subst hc; subst hr; subst hi
                  simp [mGet, e1, e2, e3]
              · rfl
          | some x =>
              dsimp only
              by_cases hc : c = c'
              · subst hc
                by_cases hr : r = r'
                · subst hr
                  by_cases hi : i = i'
                  · subst hi
                    rw [if_pos ⟨rfl, rfl, rfl⟩]
                    unfold mGet
                    rw [alGet_alPut_self, Option.some_bind, alGet_alPut_self,
                      Option.some_bind, alGet_alPut_self]
                    simp [e1, e2, e3]
                  · rw [if_neg (by simp [hi])]
                    unfold mGet
                    rw [alGet_alPut_self, Option.some_bind, alGet_alPut_self,
                      Option.some_bind, alGet_alPut_ne _ _ _ _ (Ne.symm hi)]
                    simp [e1, e2]
                · rw [if_neg (by simp [hr])]
                  unfold mGet
                  rw [alGet_alPut_self, Option.some_bind,
                    alGet_alPut_ne _ _ _ _ (Ne.symm hr)]
                  simp [e1]
              · rw [if_neg (by simp [hc])]
                unfold mGet
                rw [alGet_alPut_ne _ _ _ _ (Ne.symm hc)]

theorem discoveredAt_applyOp (m : Metadata) (op : StoreOp) (c r i : String)
    (x : Notice) (h : mGet m c r i = some x) :
    ∃ y, mGet (applyOp m op) c r i = some y ∧ y.discoveredAt = x.discoveredAt := by
  cases op with
  | add c0 n d dlOk =>
      show ∃ y, mGet (addNotice m c0 n d dlOk).1 c r i = some y ∧ _
      unfold addNotice
      cases e : mGet m c0 n.route n.id with
      | none =>
          dsimp only
          by_cases hdl : dlOk
          · subst hdl
            rw [if_pos rfl]
            dsimp only
            rw [mGet_mSet]
            split
            · next hkey =>
                obtain ⟨hc, hr, hi⟩ := hkey
                subst hc; subst hr; subst hi
                rw [h] at e
                exact absurd e (by simp)
            · exact ⟨x, h, rfl⟩
          · simp only [hdl, if_false, Bool.false_eq_true]
            exact ⟨x, h, rfl⟩
      | some ex =>
          dsimp only
          rw [mGet_mSet]
          split
          · next hkey =>
              obtain ⟨hc, hr, hi⟩ := hkey
              subst hc; subst hr; subst hi
              rw [h] at e
              obtain hex : x = ex := by injection e
              exact ⟨_, rfl, by rw [hex]⟩
          · exact ⟨x, h, rfl⟩
  | touch c0 r0 i0 d =>
      show ∃ y, mGet (updateLastSeen m c0 r0 i0 d).1 c r i = some y ∧ _
      unfold updateLastSeen
      cases e : mGet m c0 r0 i0 with
      | none => exact ⟨x, h, rfl⟩
      | some ex =>
          dsimp only
          rw [mGet_mUpd]
          split
          · next hkey =>
              obtain ⟨hc, hr, hi⟩ := hkey
              subst hc; subst hr; subst hi
              rw [h]
              exact ⟨_, rfl, rfl⟩
          · exact ⟨x, h, rfl⟩
  | retire c0 r0 i0 =>
      show ∃ y, mGet (markInactive m c0 r0 i0).1 c r i = some y ∧ _
      unfold markInactive
      cases e : mGet m c0 r0 i0 with
      | none => exact ⟨x, h, rfl⟩
      | some ex =>
          dsimp only
          rw [mGet_mUpd]
          split
          · next hkey =>
              obtain ⟨hc, hr, hi⟩ := hkey
              subst hc; subst hr; subst hi
              rw [h]
              exact ⟨_, rfl, rfl⟩
          · exact ⟨x, h, rfl⟩

/-- C4: `discoveredAt` is immutable once a record exists. For every
record present in the store, after ANY sequence of store operations
(`addNotice` on the existing key or any other key, with either download
outcome, `updateLastSeen`, `markInactive`) the record is still present
and its `discoveredAt` equals its original value: `addNotice` on an
existing key rewrites only `lastSeenAt`/`isActive`, `updateLastSeen`
rewrites only `lastSeenAt`, `markInactive` rewrites only `isActive`, and
no operation removes a record. -/
theorem c4_discoveredAt_immutable (ops : List StoreOp) (m : Metadata)
    (c r i : String) (x : Notice) (h : mGet m c r i = some x) :
    ∃ y, mGet (applyOps m ops) c r i = some y ∧ y.discoveredAt = x.discoveredAt := by
  induction ops generalizing m x with
  | nil => exact ⟨x, h, rfl⟩
  | cons op rest ih =>
      obtain ⟨y, hy, hd⟩ := discoveredAt_applyOp m op c r i x h
      obtain ⟨z, hz, hzd⟩ := ih (applyOp m op) y hy
      exact ⟨z, hz, by rw [hzd, hd]⟩

theorem c4_witness :
    mGet [("KMB", [("1", [("N1", sampleNotice "1" "N1" true)])])] "KMB" "1" "N1"
      = some (sampleNotice "1" "N1" true)
    ∧ ∃ y,
        mGet (applyOps [("KMB", [("1", [("N1", sampleNotice "1" "N1" true)])])]
          [StoreOp.touch "KMB" "1" "N1" sampleDate,
           StoreOp.add "KMB" (sampleNotice "1" "N1" true) sampleDate true,
           StoreOp.retire "KMB" "1" "N1"]) "KMB" "1" "N1" = some y
        ∧ y.discoveredAt = (sampleNotice "1" "N1" true).discoveredAt :=
  ⟨by decide,
    c4_discoveredAt_immutable
      [StoreOp.touch "KMB" "1" "N1" sampleDate,
       StoreOp.add "KMB" (sampleNotice "1" "N1" true) sampleDate true,
       StoreOp.retire "KMB" "1" "N1"]
      [("KMB", [("1", [("N1", sampleNotice "1" "N1" true)])])]
      "KMB" "1" "N1" (sampleNotice "1" "N1" true) (by decide)⟩

theorem decodeKey_colonFree (r i : String) (hr : ':' ∉ r.data) (hi : ':' ∉ i.data) :
    decodeKey (r ++ ":" ++ i) = (r, i) := by
  unfold decodeKey
  have hdata : (r ++ ":" ++ i).data = r.data ++ ':' :: i.data := by
    simp [String.data_append]
  rw [hdata, splitCh_sep_append ':' r.data i.data hr, splitCh_no_sep ':' i.data hi]

theorem markInactive_kills (mm : Metadata) (c r i : String) (y : Notice)
    (h : mGet mm c r i = some y) :
    mGet (markInactive mm c r i).1 c r i = some { y with isActive := false } := by
  unfold markInactive
  rw [h]
  dsimp only
  rw [mGet_mUpd, if_pos ⟨rfl, rfl, rfl⟩, h]
  rfl

theorem markInactive_options (mm : Metadata) (c r0 i0 r i : String) :
    mGet (markInactive mm c r0 i0).1 c r i = mGet mm c r i
    ∨ mGet (markInactive mm c r0 i0).1 c r i
        = (mGet mm c r i).map (fun y => { y with isActive := false }) := by
  unfold markInactive
  cases e : mGet mm c r0 i0 with
  | none => exact Or.inl rfl
  | some ex =>
      dsimp only
      rw [mGet_mUpd]
      split
      · next hkey =>
          obtain ⟨_, hrr, hii⟩ := hkey
          subst hrr; subst hii
          exact Or.inr rfl
      · exact Or.inl rfl

theorem record_dead_update (y : Notice) (h : y.isActive = false) :
    { y with isActive := false } = y := by
  cases y
  simp_all

theorem markInactive_preserves_dead (mm : Metadata) (c r0 i0 r i : String) (y : Notice)
    (h : mGet mm c r i = some y) (hy : y.isActive = false) :
    mGet (markInactive mm c r0 i0).1 c r i = some y := by
  rcases markInactive_options mm c r0 i0 r i with ho | ho
  · rw [ho, h]
  · rw [ho, h]
    simp [record_dead_update y hy]

theorem retireUnseen_cons (c : String) (seen : List String) (k : String)
    (snap : List String) (mm : Metadata) :
    retireUnseen c seen (k :: snap) mm
      = retireUnseen c seen snap
          (if k ∈ seen then mm
           else (markInactive mm c (decodeKey k).1 (decodeKey k).2).1) := by
  unfold retireUnseen
  rw [List.foldl_cons]

theorem retireUnseen_preserves_dead (c : String) (seen : List String)
    (snap : List String) :
    ∀ (mm : Metadata) (r i : String) (y : Notice),
      mGet mm c r i = some y → y.isActive = false →
      mGet (retireUnseen c seen snap mm) c r i = some y := by
  induction snap with
  | nil => intro mm r i y h _; exact h
  | cons k rest ih =>
      intro mm r i y h hy
      rw [retireUnseen_cons]
      by_cases hk : k ∈ seen
      · rw [if_pos hk]
        exact ih mm r i y h hy
      · rw [if_neg hk]
        exact ih _ r i y (markInactive_preserves_dead mm c _ _ r i y h hy) hy

theorem retireUnseen_retires (c : String) (seen : List String) (r i : String)
    (hr : ':' ∉ r.data) (hi : ':' ∉ i.data) (hks : (r ++ ":" ++ i) ∉ seen) :
    ∀ (snap : List String) (mm : Metadata) (x : Notice),
      (r ++ ":" ++ i) ∈ snap →
      (mGet mm c r i = some x ∨ mGet mm c r i = some { x with isActive := false }) →
      mGet (retireUnseen c seen snap mm) c r i = some { x with isActive := false } := by
  intro snap
  induction snap with
  | nil => intro mm x hmem _; exact absurd hmem (List.not_mem_nil _)
  | cons k rest ih =>
      intro mm x hmem hinv
      rw [retireUnseen_cons]
      by_cases hk : k ∈ seen
      · rw [if_pos hk]
        have hkey : (r ++ ":" ++ i) ∈ rest := by
          rcases List.mem_cons.mp hmem with he | ht
          · exact absurd (he ▸ hk) hks
          · exact ht
        exact ih mm x hkey hinv
      · rw [if_neg hk]
        by_cases hkk : k = r ++ ":" ++ i
        · subst hkk
          rw [decodeKey_colonFree r i hr hi]
          rcases hinv with hx | hx
          · exact retireUnseen_preserves_dead c seen rest _ r i _
              (markInactive_kills mm c r i x hx) rfl
          · exact retireUnseen_preserves_dead c seen rest _ r i _
              (markInactive_preserves_dead mm c r i r i _ hx rfl) rfl
        · have hkey : (r ++ ":" ++ i) ∈ rest := by
            rcases List.mem_cons.mp hmem with he | ht
            · exact absurd he.symm hkk
            · exact ht
          rcases markInactive_options mm c (decodeKey k).1 (decodeKey k).2 r i with ho | ho
          · apply ih _ x hkey
            rcases hinv with hx | hx
            · exact Or.inl (ho.trans hx)
            · exact Or.inr (ho.trans hx)
          · apply ih _ x hkey
            rcases hinv with hx | hx
            · exact Or.inr (by rw [ho, hx]; rfl)
            · exact Or.inr (by rw [ho, hx]; rfl)

theorem updateLastSeen_frame (m : Metadata) (c r0 i0 : String) (d : Date) (r i : String)
    (hne : ¬(r0 = r ∧ i0 = i)) :
    mGet (updateLastSeen m c r0 i0 d).1 c r i = mGet m c r i := by
  unfold updateLastSeen
  cases e : mGet m c r0 i0 with
  | none => rfl
  | some ex =>
      dsimp only
      rw [mGet_mUpd, if_neg (fun hkey => hne ⟨hkey.2.1, hkey.2.2⟩)]

theorem addNotice_frame (m : Metadata) (c : String) (n : Notice) (d : Date) (dlOk : Bool)
    (r i : String) (hne : ¬(n.route = r ∧ n.id = i)) :
    mGet (addNotice m c n d dlOk).1 c r i = mGet m c r i := by
  unfold addNotice
  cases e : mGet m c n.route n.id with
  | none =>
      dsimp only
      cases dlOk with
      | false => rfl
      | true =>
          rw [if_pos rfl]
          dsimp only
          rw [mGet_mSet, if_neg (fun hkey => hne ⟨hkey.2.1, hkey.2.2⟩)]
  | some ex =>
      dsimp only
      rw [mGet_mSet, if_neg (fun hkey => hne ⟨hkey.2.1, hkey.2.2⟩)]

theorem processNotices_frame (c : String) (now : Date) (dl : String → String → Bool)
    (route : String) (r i : String) (ns : List (String × String)) :
    ∀ (m : Metadata) (seen : List String),
      (r ++ ":" ++ i) ∉ ns.map (fun nu => route ++ ":" ++ nu.1) →
      mGet (processNotices c now dl route ns m seen).1 c r i = mGet m c r i := by
  induction ns with
  | nil => intro m seen _; rfl
  | cons nu rest ih =>
      intro m seen hout
      have hkne : route ++ ":" ++ nu.1 ≠ r ++ ":" ++ i := by
        intro he
        exact hout (by rw [List.map_cons]; exact he ▸ List.mem_cons_self _ _)
      have hpairne : ¬(route = r ∧ nu.1 = i) := fun hp => hkne (by rw [hp.1, hp.2])
      have hrest : (r ++ ":" ++ i) ∉ rest.map (fun nu => route ++ ":" ++ nu.1) := by
        intro hm
        exact hout (by rw [List.map_cons]; exact List.mem_cons_of_mem _ hm)
      simp only [processNotices]
      dsimp only [mkFetchedNotice]
      split
      · rw [ih _ _ hrest, updateLastSeen_frame _ _ _ _ _ _ _ hpairne]
      · split
        · next m' heq =>
            rw [ih _ _ hrest]
            have hfr := addNotice_frame m c (mkFetchedNotice route nu now) now
              (dl route nu.1) r i hpairne
            dsimp only [mkFetchedNotice] at hfr
            rw [heq] at hfr
            exact hfr
        · next m' heq =>
            show mGet m' c r i = mGet m c r i
            have hfr := addNotice_frame m c (mkFetchedNotice route nu now) now
              (dl route nu.1) r i hpairne
            dsimp only [mkFetchedNotice] at hfr
            rw [heq] at hfr
            exact hfr

theorem scrapeFold_frame (c : String) (now : Date) (dl : String → String → Bool)
    (r i : String) (rs : List SourceRoute) :
    ∀ (m : Metadata) (seen : List String),
      (r ++ ":" ++ i) ∉ allKeys rs →
      mGet ((rs.foldl
          (fun acc rd => processNotices c now dl rd.route rd.notices acc.1 acc.2)
          (m, seen)).1) c r i = mGet m c r i := by
  induction rs with
  | nil => intro m seen _; rfl
  | cons rd rest ih =>
      intro m seen hout
      have hsplit : allKeys (rd :: rest)
          = rd.notices.map (fun nu => rd.route ++ ":" ++ nu.1) ++ allKeys rest := by
        simp [allKeys]
      have h1 : (r ++ ":" ++ i) ∉ rd.notices.map (fun nu => rd.route ++ ":" ++ nu.1) :=
        fun hm => hout (hsplit ▸ List.mem_append.mpr (Or.inl hm))
      have h2 : (r ++ ":" ++ i) ∉ allKeys rest :=
        fun hm => hout (hsplit ▸ List.mem_append.mpr (Or.inr hm))
      rw [List.foldl_cons]
      rw [ih _ _ h2, processNotices_frame _ _ _ _ _ _ _ _ _ h1]

theorem alGet_mem {α : Type} (l : List (String × α)) (k : String) (v : α)
    (h : alGet l k = some v) : (k, v) ∈ l := by
  induction l with
  | nil => simp [alGet] at h
  | cons p rest ih =>
      obtain ⟨k0, w⟩ := p
      by_cases h0 : k0 = k
      · subst h0
        rw [alGet, if_pos rfl] at h
        injection h with hv
        subst hv
        exact List.mem_cons_self _ _
      · rw [alGet, if_neg h0] at h
        exact List.mem_cons_of_mem _ (ih h)

theorem activeFold_mono (r0 : String) (entries : RouteMap) (k : String) :
    ∀ acc : List String, k ∈ acc →
      k ∈ entries.foldl
        (fun acc2 ip =>
          if ip.2.isActive then setInsert acc2 (r0 ++ ":" ++ ip.1) else acc2) acc := by
  induction entries with
  | nil => intro acc h; exact h
  | cons e rest ih =>
      intro acc h
      rw [List.foldl_cons]
      apply ih
      by_cases he : e.2.isActive = true
      · simp only [he, if_true]
        exact mem_setInsert_of_mem _ _ _ h
      · simp only [he, if_false]
        exact h

theorem activeFold_mem (r0 : String) (entries : RouteMap) (i : String) (x : Notice)
    (hact : x.isActive = true) :
    ∀ acc : List String, (i, x) ∈ entries →
      (r0 ++ ":" ++ i) ∈ entries.foldl
        (fun acc2 ip =>
          if ip.2.isActive then setInsert acc2 (r0 ++ ":" ++ ip.1) else acc2) acc := by
  induction entries with
  | nil => intro acc h; exact absurd h (List.not_mem_nil _)
  | cons e rest ih =>
      intro acc hmem
      rw [List.foldl_cons]
      rcases List.mem_cons.mp hmem with he | ht
      · subst he
        apply activeFold_mono
        simp only [hact, if_true]
        exact mem_setInsert_self _ _
      · exact ih _ ht

theorem activeOuterFold_mono (cd : CompanyMap) (k : String) :
    ∀ acc : List String, k ∈ acc →
      k ∈ cd.foldl
        (fun acc rp =>
          rp.2.foldl
            (fun acc2 ip =>
              if ip.2.isActive then setInsert acc2 (rp.1 ++ ":" ++ ip.1) else acc2)
            acc) acc := by
  induction cd with
  | nil => intro acc h; exact h
  | cons e rest ih =>
      intro acc h
      rw [List.foldl_cons]
      exact ih _ (activeFold_mono _ _ _ _ h)

theorem activeOuterFold_mem (cd : CompanyMap) (r i : String) (rm : RouteMap) (x : Notice)
    (hact : x.isActive = true) :
    ∀ acc : List String, (r, rm) ∈ cd → (i, x) ∈ rm →
      (r ++ ":" ++ i) ∈ cd.foldl
        (fun acc rp =>
          rp.2.foldl
            (fun acc2 ip =>
              if ip.2.isActive then setInsert acc2 (rp.1 ++ ":" ++ ip.1) else acc2)
            acc) acc := by
  induction cd with
  | nil => intro acc h _; exact absurd h (List.not_mem_nil _)
  | cons e rest ih =>
      intro acc hcd hrm
      rw [List.foldl_cons]
      rcases List.mem_cons.mp hcd with he | ht
      · subst he
        exact activeOuterFold_mono _ _ _ (activeFold_mem r rm i x hact acc hrm)
      · exact ih _ ht hrm

theorem active_mem_getActiveNotices (m : Metadata) (c r i : String) (x : Notice)
    (h : mGet m c r i = some x) (hact : x.isActive = true) :
    (r ++ ":" ++ i) ∈ getActiveNotices m c := by
  unfold getActiveNotices
  cases e1 : alGet m c with
  | none => rw [mGet, e1] at h; simp at h
  | some cd =>
      cases e2 : alGet cd r with
      | none => rw [mGet, e1] at h; simp [e2] at h
      | some rm =>
          cases e3 : alGet rm i with
          | none => rw [mGet, e1] at h; simp [e2, e3] at h
          | some y =>
              have hy : y = x := by
                rw [mGet, e1] at h
                simp [e2, e3] at h
                exact h
              subst hy
              exact activeOuterFold_mem cd r i rm y hact [] (alGet_mem _ _ _ e2)
                (alGet_mem _ _ _ e3)

theorem mem_setInsert_elim (l : List String) (k k0 : String)
    (h : k ∈ setInsert l k0) : k ∈ l ∨ k = k0 := by
  unfold setInsert at h
  split at h
  · exact Or.inl h
  · rcases List.mem_append.mp h with h1 | h2
    · exact Or.inl h1
    · simp at h2
      exact Or.inr h2

theorem processNotices_seen_subset (c : String) (now : Date)
    (dl : String → String → Bool) (route : String) (ns : List (String × String)) :
    ∀ (m : Metadata) (seen : List String) (k : String),
      k ∈ (processNotices c now dl route ns m seen).2 →
      k ∈ seen ∨ k ∈ ns.map (fun nu => route ++ ":" ++ nu.1) := by
  induction ns with
  | nil => intro m seen k h; exact Or.inl h
  | cons nu rest ih =>
      intro m seen k h
      simp only [processNotices] at h
      dsimp only [mkFetchedNotice] at h
      have hstep : k ∈ setInsert seen (route ++ ":" ++ nu.1) ∨
          k ∈ rest.map (fun nu => route ++ ":" ++ nu.1) := by
        split at h
        · exact ih _ _ k h
        · split at h
          · exact ih _ _ k h
          · exact Or.inl h
      rcases hstep with hs | hns
      · rcases mem_setInsert_elim _ _ _ hs with h1 | h2
        · exact Or.inl h1
        · right
          rw [List.map_cons]
          exact h2 ▸ List.mem_cons_self _ _
      · right
        rw [List.map_cons]
        exact List.mem_cons_of_mem _ hns

theorem scrapeFold_seen_subset (c : String) (now : Date)
    (dl : String → String → Bool) (rs : List SourceRoute) :
    ∀ (m : Metadata) (seen : List String) (k : String),
      k ∈ (rs.foldl
          (fun acc rd => processNotices c now dl rd.route rd.notices acc.1 acc.2)
          (m, seen)).2 →
      k ∈ seen ∨ k ∈ allKeys rs := by
  induction rs with
  | nil => intro m seen k h; exact Or.inl h
  | cons rd rest ih =>
      intro m seen k h
      have hsplit : allKeys (rd :: rest)
          = rd.notices.map (fun nu => rd.route ++ ":" ++ nu.1) ++ allKeys rest := by
        simp [allKeys]
      rw [List.foldl_cons] at h
      rcases ih _ _ k h with hs | hks
      · rcases processNotices_seen_subset c now dl rd.route rd.notices m seen k hs with h1 | h2
        · exact Or.inl h1
        · exact Or.inr (hsplit ▸ List.mem_append.mpr (Or.inl h2))
      · exact Or.inr (hsplit ▸ List.mem_append.mpr (Or.inr hks))

/-- C2 (amended): a previously active notice on a route outside the
capped first-10 subset is NOT left unchanged by the run: since its key
never enters the run's `seen` set, the retirement loop — which iterates
over ALL previously active notices of the operator — marks it inactive.
For any store, source data and download oracle: if the record exists, is
active, its route and id are colon-free, and its key is not among the
keys of the capped route subset, the run leaves the record with
`isActive = false` and every other field unchanged. -/
theorem c2_out_of_cap_active_notice_is_retired (c : String) (now : Date)
    (dl : String → String → Bool) (routes : List SourceRoute) (m : Metadata)
    (r i : String) (x : Notice)
    (h : mGet m c r i = some x) (hact : x.isActive = true)
    (hr : ':' ∉ r.data) (hi : ':' ∉ i.data)
    (hout : (r ++ ":" ++ i) ∉ allKeys (routes.take 10)) :
    mGet (scrapeRunCapped c now dl routes m).1 c r i
      = some { x with isActive := false } := by
  unfold scrapeRunCapped scrapeRun
  dsimp only
  refine retireUnseen_retires c _ r i hr hi ?_ _ _ x ?_ ?_
  · intro hk
    rcases scrapeFold_seen_subset c now dl (routes.take 10) m [] _ hk with h1 | h2
    · exact absurd h1 (List.not_mem_nil _)
    · exact hout h2
  · exact active_mem_getActiveNotices m c r i x h hact
  · exact Or.inl (by
      rw [scrapeFold_frame c now dl r i (routes.take 10) m [] hout]
      exact h)

theorem c2_amended_witness :
    mGet [("KMB", [("R11", [("N1", sampleNotice "R11" "N1" true)])])] "KMB" "R11" "N1"
      = some (sampleNotice "R11" "N1" true)
    ∧ mGet (scrapeRunCapped "KMB" sampleDate (fun _ _ => true)
        (((List.range 10).map
          (fun k => ({ route := "R" ++ toString (k + 1), notices := [] } : SourceRoute)))
          ++ [({ route := "R11", notices := [("N1", "u")] } : SourceRoute)])
        [("KMB", [("R11", [("N1", sampleNotice "R11" "N1" true)])])]).1
        "KMB" "R11" "N1"
      = some { sampleNotice "R11" "N1" true with isActive := false } :=
  ⟨by decide,
    c2_out_of_cap_active_notice_is_retired "KMB" sampleDate (fun _ _ => true)
      (((List.range 10).map
        (fun k => ({ route := "R" ++ toString (k + 1), notices := [] } : SourceRoute)))
        ++ [({ route := "R11", notices := [("N1", "u")] } : SourceRoute)])
      [("KMB", [("R11", [("N1", sampleNotice "R11" "N1" true)])])]
      "R11" "N1" (sampleNotice "R11" "N1" true)
      (by decide) (by decide) (by decide) (by decide) (by decide)⟩

theorem alPut_self {α : Type} (l : List (String × α)) (k : String) (v : α)
    (h : alGet l k = some v) : alPut l k v = l := by
  induction l with
  | nil => simp [alGet] at h
  | cons p rest ih =>
      obtain ⟨k0, w⟩ := p
      by_cases h0 : k0 = k
      · subst h0
        rw [alGet, if_pos rfl] at h
        injection h with hv
        rw [alPut, if_pos rfl, hv]
      · rw [alGet, if_neg h0] at h
        rw [alPut, if_neg h0, ih h]

theorem mUpd_self (m : Metadata) (c r i : String) (f : Notice → Notice) (y : Notice)
    (h : mGet m c r i = some y) (hf : f y = y) : mUpd m c r i f = m := by
  unfold mUpd
  cases e1 : alGet m c with
  | none => rfl
  | some cd =>
      dsimp only
      cases e2 : alGet cd r with
      | none => rfl
      | some rm =>
          dsimp only
          cases e3 : alGet rm i with
          | none => rfl
          | some x =>
              dsimp only
              have hx : x = y := by
                rw [mGet, e1] at h
                simp [e2, e3] at h
                exact h
              subst hx
              rw [hf, alPut_self _ _ _ e3, alPut_self _ _ _ e2, alPut_self _ _ _ e1]

theorem record_lastSeen_update (y : Notice) (d : Date) (h : y.lastSeenAt = some d) :
    { y with lastSeenAt := some d } = y := by
  cases y
  simp_all

theorem updateLastSeen_self (m : Metadata) (c r i : String) (d : Date) (y : Notice)
    (h : mGet m c r i = some y) (hl : y.lastSeenAt = some d) :
    (updateLastSeen m c r i d).1 = m := by
  unfold updateLastSeen
  rw [h]
  dsimp only
  exact mUpd_self m c r i _ y h (record_lastSeen_update y d hl)

theorem markInactive_self (m : Metadata) (c r i : String) (y : Notice)
    (h : mGet m c r i = some y) (ha : y.isActive = false) :
    (markInactive m c r i).1 = m := by
  unfold markInactive
  rw [h]
  dsimp only
  exact mUpd_self m c r i _ y h (record_dead_update y ha)

theorem updateLastSeen_act (m : Metadata) (c r0 i0 : String) (d : Date) (r i : String) :
    (mGet (updateLastSeen m c r0 i0 d).1 c r i).map Notice.isActive
      = (mGet m c r i).map Notice.isActive := by
  unfold updateLastSeen
  cases e : mGet m c r0 i0 with
  | none => rfl
  | some y =>
      dsimp only
      rw [mGet_mUpd]
      split
      · next hkey =>
          obtain ⟨_, hr, hi⟩ := hkey
          subst hr; subst hi
          rw [e]
          rfl
      · rfl

theorem isSome_eq_of_actmap_eq (x y : Option Notice)
    (h : x.map Notice.isActive = y.map Notice.isActive) : x.isSome = y.isSome := by
  cases x <;> cases y <;> simp_all

theorem markInactive_isSome (m : Metadata) (c r0 i0 r i : String) :
    (mGet (markInactive m c r0 i0).1 c r i).isSome = (mGet m c r i).isSome := by
  rcases markInactive_options m c r0 i0 r i with ho | ho
  · rw [ho]
  · rw [ho]
    cases mGet m c r i <;> rfl

theorem markInactive_act_le (m : Metadata) (c r0 i0 r i : String)
    (h : (mGet (markInactive m c r0 i0).1 c r i).map Notice.isActive = some true) :
    (mGet m c r i).map Notice.isActive = some true := by
  rcases markInactive_options m c r0 i0 r i with ho | ho
  · rw [ho] at h
    exact h
  · rw [ho] at h
    cases e : mGet m c r i with
    | none => rw [e] at h; simp at h
    | some y => rw [e] at h; simp at h

theorem touchprop_pres_upd (m : Metadata) (c r0 i0 : String) (now : Date) (r i : String)
    (y : Notice) (h : mGet m c r i = some y) (hl : y.lastSeenAt = some now) :
    ∃ y', mGet (updateLastSeen m c r0 i0 now).1 c r i = some y'
      ∧ y'.lastSeenAt = some now := by
  unfold updateLastSeen
  cases e : mGet m c r0 i0 with
  | none => exact ⟨y, h, hl⟩
  | some z =>
      dsimp only
      rw [mGet_mUpd]
      split
      · next hkey =>
          obtain ⟨_, hr, hi⟩ := hkey
          subst hr; subst hi
          rw [h]
          exact ⟨_, rfl, rfl⟩
      · exact ⟨y, h, hl⟩

theorem touchprop_pres_mark (m : Metadata) (c r0 i0 : String) (now : Date) (r i : String)
    (y : Notice) (h : mGet m c r i = some y) (hl : y.lastSeenAt = some now) :
    ∃ y', mGet (markInactive m c r0 i0).1 c r i = some y'
      ∧ y'.lastSeenAt = some now := by
  rcases markInactive_options m c r0 i0 r i with ho | ho
  · exact ⟨y, ho.trans h, hl⟩
  · refine ⟨{ y with isActive := false }, ?_, ?_⟩
    · rw [ho, h]
      rfl
    · exact hl

theorem touchprop_pres_add (m : Metadata) (c : String) (n : Notice) (now : Date)
    (dlOk : Bool) (r i : String) (y : Notice)
    (h : mGet m c r i = some y) (hl : y.lastSeenAt = some now) :
    ∃ y', mGet (addNotice m c n now dlOk).1 c r i = some y'
      ∧ y'.lastSeenAt = some now := by
  unfold addNotice
  cases e : mGet m c n.route n.id with
  | none =>
      dsimp only
      cases dlOk with
      | false => exact ⟨y, h, hl⟩
      | true =>
          rw [if_pos rfl]
          dsimp only
          rw [mGet_mSet]
          split
          · next hkey =>
              obtain ⟨_, hr, hi⟩ := hkey
              subst hr; subst hi
              rw [h] at e
              exact absurd e (by simp)
          · exact ⟨y, h, hl⟩
  | some ex =>
      dsimp only
      rw [mGet_mSet]
      split
      · exact ⟨_, rfl, rfl⟩
      · exact ⟨y, h, hl⟩

theorem updateLastSeen_sets (m : Metadata) (c r i : String) (d : Date)
    (h : (mGet m c r i).isSome = true) :
    ∃ y, mGet (updateLastSeen m c r i d).1 c r i = some y ∧ y.lastSeenAt = some d := by
  unfold updateLastSeen
  cases e : mGet m c r i with
  | none => rw [e] at h; simp at h
  | some z =>
      dsimp only
      rw [mGet_mUpd, if_pos ⟨rfl, rfl, rfl⟩, e]
      exact ⟨_, rfl, rfl⟩

theorem touchprop_pres_processNotices (c : String) (now : Date)
    (dl : String → String → Bool) (route : String) (ns : List (String × String)) :
    ∀ (m : Metadata) (seen : List String) (r i : String) (y : Notice),
      mGet m c r i = some y → y.lastSeenAt = some now →
      ∃ y', mGet (processNotices c now dl route ns m seen).1 c r i = some y'
        ∧ y'.lastSeenAt = some now := by
  induction ns with
  | nil => intro m seen r i y h hl; exact ⟨y, h, hl⟩
  | cons nu rest ih =>
      intro m seen r i y h hl
      simp only [processNotices]
      dsimp only [mkFetchedNotice]
      split
      · obtain ⟨y', hy', hl'⟩ := touchprop_pres_upd m c route nu.1 now r i y h hl
        exact ih _ _ r i y' hy' hl'
      · split
        · next m' heq =>
            obtain ⟨y', hy', hl'⟩ := touchprop_pres_add m c
              (mkFetchedNotice route nu now) now (dl route nu.1) r i y h hl
            dsimp only [mkFetchedNotice] at hy'
            rw [heq] at hy'
            exact ih _ _ r i y' hy' hl'
        · next m' heq =>
            obtain ⟨y', hy', hl'⟩ := touchprop_pres_add m c
              (mkFetchedNotice route nu now) now (dl route nu.1) r i y h hl
            dsimp only [mkFetchedNotice] at hy'
            rw [heq] at hy'
            exact ⟨y', hy', hl'⟩

theorem touchprop_pres_fold (c : String) (now : Date) (dl : String → String → Bool)
    (rs : List SourceRoute) :
    ∀ (m : Metadata) (seen : List String) (r i : String) (y : Notice),
      mGet m c r i = some y → y.lastSeenAt = some now →
      ∃ y', mGet ((rs.foldl
          (fun acc rd => processNotices c now dl rd.route rd.notices acc.1 acc.2)
          (m, seen)).1) c r i = some y' ∧ y'.lastSeenAt = some now := by
  induction rs with
  | nil => intro m seen r i y h hl; exact ⟨y, h, hl⟩
  | cons rd rest ih =>
      intro m seen r i y h hl
      rw [List.foldl_cons]
      obtain ⟨y', hy', hl'⟩ := touchprop_pres_processNotices c now dl rd.route rd.notices
        m seen r i y h hl
      exact ih _ _ r i y' hy' hl'

theorem processNotices_act (c : String) (now : Date) (dl : String → String → Bool)
    (route : String) (ns : List (String × String)) :
    ∀ (m : Metadata) (seen : List String),
      (∀ nu ∈ ns, (mGet m c route nu.1).isSome = true) →
      ∀ r i, (mGet (processNotices c now dl route ns m seen).1 c r i).map Notice.isActive
        = (mGet m c r i).map Notice.isActive := by
  induction ns with
  | nil => intro m seen _ r i; rfl
  | cons nu rest ih =>
      intro m seen hex r i
      have hcond : noticeExistsInMetadata m c route nu.1 = true :=
        hex nu (List.mem_cons_self _ _)
      simp only [processNotices]
      dsimp only [mkFetchedNotice]
      rw [if_pos hcond]
      have hrest : ∀ nu' ∈ rest, (mGet (updateLastSeen m c route nu.1 now).1 c route nu'.1).isSome = true := by
        intro nu' hmem
        rw [isSome_eq_of_actmap_eq _ _ (updateLastSeen_act m c route nu.1 now route nu'.1)]
        exact hex nu' (List.mem_cons_of_mem _ hmem)
      rw [ih _ _ hrest r i, updateLastSeen_act]

theorem processNotices_isSome (c : String) (now : Date) (dl : String → String → Bool)
    (route : String) (ns : List (String × String)) (m : Metadata) (seen : List String)
    (hex : ∀ nu ∈ ns, (mGet m c route nu.1).isSome = true) (r i : String) :
    (mGet (processNotices c now dl route ns m seen).1 c r i).isSome
      = (mGet m c r i).isSome :=
  isSome_eq_of_actmap_eq _ _ (processNotices_act c now dl route ns m seen hex r i)

theorem processNotices_id (c : String) (now : Date) (dl : String → String → Bool)
    (route : String) (ns : List (String × String)) :
    ∀ (m : Metadata) (seen : List String),
      (∀ nu ∈ ns, ∃ y, mGet m c route nu.1 = some y ∧ y.lastSeenAt = some now) →
      (processNotices c now dl route ns m seen).1 = m := by
  induction ns with
  | nil => intro m seen _; rfl
  | cons nu rest ih =>
      intro m seen htp
      obtain ⟨y, hy, hl⟩ := htp nu (List.mem_cons_self _ _)
      have hcond : noticeExistsInMetadata m c route nu.1 = true := by
        unfold noticeExistsInMetadata
        rw [hy]
        rfl
      simp only [processNotices]
      dsimp only [mkFetchedNotice]
      rw [if_pos hcond, updateLastSeen_self m c route nu.1 now y hy hl]
      exact ih _ _ (fun nu' hmem => htp nu' (List.mem_cons_of_mem _ hmem))

theorem processNotices_seen_eq (c : String) (now : Date) (dl : String → String → Bool)
    (route : String) (ns : List (String × String)) :
    ∀ (m : Metadata) (seen : List String),
      (∀ nu ∈ ns, (mGet m c route nu.1).isSome = true) →
      (processNotices c now dl route ns m seen).2
        = ns.foldl (fun s nu => setInsert s (route ++ ":" ++ nu.1)) seen := by
  induction ns with
  | nil => intro m seen _; rfl
  | cons nu rest ih =>
      intro m seen hex
      have hcond : noticeExistsInMetadata m c route nu.1 = true :=
        hex nu (List.mem_cons_self _ _)
      simp only [processNotices]
      dsimp only [mkFetchedNotice]
      rw [if_pos hcond, List.foldl_cons]
      apply ih
      intro nu' hmem
      rw [isSome_eq_of_actmap_eq _ _ (updateLastSeen_act m c route nu.1 now route nu'.1)]
      exact hex nu' (List.mem_cons_of_mem _ hmem)

theorem processNotices_touches (c : String) (now : Date) (dl : String → String → Bool)
    (route : String) (ns : List (String × String)) :
    ∀ (m : Metadata) (seen : List String),
      (∀ nu ∈ ns, (mGet m c route nu.1).isSome = true) →
      ∀ nu ∈ ns, ∃ y, mGet (processNotices c now dl route ns m seen).1 c route nu.1 = some y
        ∧ y.lastSeenAt = some now := by
  induction ns with
  | nil => intro m seen _ nu hmem; exact absurd hmem (List.not_mem_nil _)
  | cons nu0 rest ih =>
      intro m seen hex nu hmem
      have hcond : noticeExistsInMetadata m c route nu0.1 = true :=
        hex nu0 (List.mem_cons_self _ _)
      simp only [processNotices]
      dsimp only [mkFetchedNotice]
      rw [if_pos hcond]
      have hexrest : ∀ nu' ∈ rest, (mGet (updateLastSeen m c route nu0.1 now).1 c route nu'.1).isSome = true := by
        intro nu' hm
        rw [isSome_eq_of_actmap_eq _ _ (updateLastSeen_act m c route nu0.1 now route nu'.1)]
        exact hex nu' (List.mem_cons_of_mem _ hm)
      rcases List.mem_cons.mp hmem with he | ht
      · subst he
        obtain ⟨y, hy, hl⟩ := updateLastSeen_sets m c route nu.1 now
          (hex nu (List.mem_cons_self _ _))
        exact touchprop_pres_processNotices c now dl route rest _ _ route nu.1 y hy hl
      · exact ih _ _ hexrest nu ht

theorem fold_act (c : String) (now : Date) (dl : String → String → Bool)
    (rs : List SourceRoute) :
    ∀ (m : Metadata) (seen : List String),
      (∀ rd ∈ rs, ∀ nu ∈ rd.notices, (mGet m c rd.route nu.1).isSome = true) →
      ∀ r i, (mGet ((rs.foldl
          (fun acc rd => processNotices c now dl rd.route rd.notices acc.1 acc.2)
          (m, seen)).1) c r i).map Notice.isActive
        = (mGet m c r i).map Notice.isActive := by
  induction rs with
  | nil => intro m seen _ r i; rfl
  | cons rd rest ih =>
      intro m seen hex r i
      have hex0 : ∀ nu ∈ rd.notices, (mGet m c rd.route nu.1).isSome = true :=
        hex rd (List.mem_cons_self _ _)
      have hexrest : ∀ rd' ∈ rest, ∀ nu ∈ rd'.notices,
          (mGet (processNotices c now dl rd.route rd.notices m seen).1 c rd'.route nu.1).isSome = true := by
        intro rd' hm nu hn
        rw [processNotices_isSome c now dl rd.route rd.notices m seen hex0]
        exact hex rd' (List.mem_cons_of_mem _ hm) nu hn
      rw [List.foldl_cons, ih _ _ hexrest r i, processNotices_act c now dl rd.route rd.notices m seen hex0 r i]

theorem fold_isSome (c : String) (now : Date) (dl : String → String → Bool)
    (rs : List SourceRoute) (m : Metadata) (seen : List String)
    (hex : ∀ rd ∈ rs, ∀ nu ∈ rd.notices, (mGet m c rd.route nu.1).isSome = true)
    (r i : String) :
    (mGet ((rs.foldl
        (fun acc rd => processNotices c now dl rd.route rd.notices acc.1 acc.2)
        (m, seen)).1) c r i).isSome = (mGet m c r i).isSome :=
  isSome_eq_of_actmap_eq _ _ (fold_act c now dl rs m seen hex r i)

theorem fold_touches (c : String) (now : Date) (dl : String → String → Bool)
    (rs : List SourceRoute) :
    ∀ (m : Metadata) (seen : List String),
      (∀ rd ∈ rs, ∀ nu ∈ rd.notices, (mGet m c rd.route nu.1).isSome = true) →
      ∀ rd ∈ rs, ∀ nu ∈ rd.notices,
        ∃ y, mGet ((rs.foldl
            (fun acc rd => processNotices c now dl rd.route rd.notices acc.1 acc.2)
            (m, seen)).1) c rd.route nu.1 = some y ∧ y.lastSeenAt = some now := by
  induction rs with
  | nil => intro m seen _ rd hmem; exact absurd hmem (List.not_mem_nil _)
  | cons rd0 rest ih =>
      intro m seen hex rd hmem nu hn
      have hex0 : ∀ nu ∈ rd0.notices, (mGet m c rd0.route nu.1).isSome = true :=
        hex rd0 (List.mem_cons_self _ _)
      have hexrest : ∀ rd' ∈ rest, ∀ nu' ∈ rd'.notices,
          (mGet (processNotices c now dl rd0.route rd0.notices m seen).1 c rd'.route nu'.1).isSome = true := by
        intro rd' hm nu' hn'
        rw [processNotices_isSome c now dl rd0.route rd0.notices m seen hex0]
        exact hex rd' (List.mem_cons_of_mem _ hm) nu' hn'
      rw [List.foldl_cons]
      rcases List.mem_cons.mp hmem with he | ht
      · subst he
        obtain ⟨y, hy, hl⟩ := processNotices_touches c now dl rd.route rd.notices m seen
          hex0 nu hn
        exact touchprop_pres_fold c now dl rest _ _ rd.route nu.1 y hy hl
      · exact ih _ _ hexrest rd ht nu hn

theorem fold_seen_eq (c : String) (now : Date) (dl : String → String → Bool)
    (rs : List SourceRoute) :
    ∀ (m : Metadata) (seen : List String),
      (∀ rd ∈ rs, ∀ nu ∈ rd.notices, (mGet m c rd.route nu.1).isSome = true) →
      (rs.foldl
          (fun acc rd => processNotices c now dl rd.route rd.notices acc.1 acc.2)
          (m, seen)).2
        = rs.foldl
            (fun s rd => rd.notices.foldl (fun s2 nu => setInsert s2 (rd.route ++ ":" ++ nu.1)) s)
            seen := by
  induction rs with
  | nil => intro m seen _; rfl
  | cons rd0 rest ih =>
      intro m seen hex
      have hex0 : ∀ nu ∈ rd0.notices, (mGet m c rd0.route nu.1).isSome = true :=
        hex rd0 (List.mem_cons_self _ _)
      have hexrest : ∀ rd' ∈ rest, ∀ nu' ∈ rd'.notices,
          (mGet (processNotices c now dl rd0.route rd0.notices m seen).1 c rd'.route nu'.1).isSome = true := by
        intro rd' hm nu' hn'
        rw [processNotices_isSome c now dl rd0.route rd0.notices m seen hex0]
        exact hex rd' (List.mem_cons_of_mem _ hm) nu' hn'
      rw [List.foldl_cons, List.foldl_cons, ih _ _ hexrest]
      have hp2 := processNotices_seen_eq c now dl rd0.route rd0.notices m seen hex0
      have hpair : processNotices c now dl rd0.route rd0.notices m seen
          = ((processNotices c now dl rd0.route rd0.notices m seen).1,
             rd0.notices.foldl (fun s2 nu => setInsert s2 (rd0.route ++ ":" ++ nu.1)) seen) :=
        Prod.ext rfl hp2
      rw [hpair]

theorem fold_id (c : String) (now : Date) (dl : String → String → Bool)
    (rs : List SourceRoute) :
    ∀ (m : Metadata) (seen : List String),
      (∀ rd ∈ rs, ∀ nu ∈ rd.notices,
        ∃ y, mGet m c rd.route nu.1 = some y ∧ y.lastSeenAt = some now) →
      (rs.foldl
          (fun acc rd => processNotices c now dl rd.route rd.notices acc.1 acc.2)
          (m, seen)).1 = m := by
  induction rs with
  | nil => intro m seen _; rfl
  | cons rd0 rest ih =>
      intro m seen htp
      have h0 : (processNotices c now dl rd0.route rd0.notices m seen).1 = m :=
        processNotices_id c now dl rd0.route rd0.notices m seen
          (fun nu hn => htp rd0 (List.mem_cons_self _ _) nu hn)
      rw [List.foldl_cons]
      have hpair : processNotices c now dl rd0.route rd0.notices m seen
          = (m, (processNotices c now dl rd0.route rd0.notices m seen).2) :=
        Prod.ext h0 rfl
      rw [hpair]
      exact ih _ _ (fun rd hm nu hn => htp rd (List.mem_cons_of_mem _ hm) nu hn)

theorem alPut_keys_present {α : Type} (l : List (String × α)) (k : String) (v w : α)
    (h : alGet l k = some w) : (alPut l k v).map Prod.fst = l.map Prod.fst := by
  induction l with
  | nil => simp [alGet] at h
  | cons p rest ih =>
      obtain ⟨k0, w0⟩ := p
      by_cases h0 : k0 = k
      · subst h0
        rw [alPut, if_pos rfl]
        rfl
      · rw [alGet, if_neg h0] at h
        rw [alPut, if_neg h0, List.map_cons, List.map_cons, ih h]

theorem alPut_mem_elim {α : Type} (l : List (String × α)) (k : String) (v : α)
    (q : String × α) (h : q ∈ alPut l k v) : q ∈ l ∨ q = (k, v) := by
  induction l with
  | nil =>
      simp [alPut] at h
      exact Or.inr h
  | cons p rest ih =>
      obtain ⟨k0, w0⟩ := p
      by_cases h0 : k0 = k
      · subst h0
        rw [alPut, if_pos rfl] at h
        rcases List.mem_cons.mp h with he | ht
        · exact Or.inr he
        · exact Or.inl (List.mem_cons_of_mem _ ht)
      · rw [alPut, if_neg h0] at h
        rcases List.mem_cons.mp h with he | ht
        · exact Or.inl (he ▸ List.mem_cons_self _ _)
        · rcases ih ht with h1 | h2
          · exact Or.inl (List.mem_cons_of_mem _ h1)
          · exact Or.inr h2

theorem wf_mUpd (m : Metadata) (c r i : String) (f : Notice → Notice)
    (hwf : wfMeta m) : wfMeta (mUpd m c r i f) := by
  unfold mUpd
  cases e1 : alGet m c with
  | none => exact hwf
  | some cd =>
      dsimp only
      cases e2 : alGet cd r with
      | none => exact hwf
      | some rm =>
          dsimp only
          cases e3 : alGet rm i with
          | none => exact hwf
          | some x =>
              dsimp only
              obtain ⟨hnd, hall⟩ := hwf
              obtain ⟨hndcd, hallcd⟩ := hall (c, cd) (alGet_mem m c cd e1)
              have hndrm := hallcd (r, rm) (alGet_mem cd r rm e2)
              constructor
              · unfold wfAl
                rw [alPut_keys_present m c _ cd e1]
                exact hnd
              · intro p hp
                rcases alPut_mem_elim _ _ _ p hp with hin | hpeq
                · exact hall p hin
                · subst hpeq
                  constructor
                  · unfold wfAl
                    dsimp only
                    rw [alPut_keys_present cd r _ rm e2]
                    exact hndcd
                  · intro q hq
                    dsimp only at hq
                    rcases alPut_mem_elim _ _ _ q hq with hin2 | hqeq
                    · exact hallcd q hin2
                    · subst hqeq
                      unfold wfAl
                      dsimp only
                      rw [alPut_keys_present rm i _ x e3]
                      exact hndrm

theorem wf_updateLastSeen (m : Metadata) (c r i : String) (d : Date)
    (hwf : wfMeta m) : wfMeta (updateLastSeen m c r i d).1 := by
  unfold updateLastSeen
  cases e : mGet m c r i with
  | none => exact hwf
  | some y =>
      dsimp only
      exact wf_mUpd _ _ _ _ _ hwf

theorem wf_markInactive (m : Metadata) (c r i : String)
    (hwf : wfMeta m) : wfMeta (markInactive m c r i).1 := by
  unfold markInactive
  cases e : mGet m c r i with
  | none => exact hwf
  | some y =>
      dsimp only
      exact wf_mUpd _ _ _ _ _ hwf

theorem processNotices_wf (c : String) (now : Date) (dl : String → String → Bool)
    (route : String) (ns : List (String × String)) :
    ∀ (m : Metadata) (seen : List String),
      (∀ nu ∈ ns, (mGet m c route nu.1).isSome = true) → wfMeta m →
      wfMeta (processNotices c now dl route ns m seen).1 := by
  induction ns with
  | nil => intro m seen _ hwf; exact hwf
  | cons nu rest ih =>
      intro m seen hex hwf
      have hcond : noticeExistsInMetadata m c route nu.1 = true :=
        hex nu (List.mem_cons_self _ _)
      simp only [processNotices]
      dsimp only [mkFetchedNotice]
      rw [if_pos hcond]
      apply ih
      · intro nu' hm
        rw [isSome_eq_of_actmap_eq _ _ (updateLastSeen_act m c route nu.1 now route nu'.1)]
        exact hex nu' (List.mem_cons_of_mem _ hm)
      · exact wf_updateLastSeen m c route nu.1 now hwf

theorem fold_wf (c : String) (now : Date) (dl : String → String → Bool)
    (rs : List SourceRoute) :
    ∀ (m : Metadata) (seen : List String),
      (∀ rd ∈ rs, ∀ nu ∈ rd.notices, (mGet m c rd.route nu.1).isSome = true) → wfMeta m →
      wfMeta ((rs.foldl
          (fun acc rd => processNotices c now dl rd.route rd.notices acc.1 acc.2)
          (m, seen)).1) := by
  induction rs with
  | nil => intro m seen _ hwf; exact hwf
  | cons rd0 rest ih =>
      intro m seen hex hwf
      have hex0 : ∀ nu ∈ rd0.notices, (mGet m c rd0.route nu.1).isSome = true :=
        hex rd0 (List.mem_cons_self _ _)
      rw [List.foldl_cons]
      apply ih
      · intro rd' hm nu' hn'
        rw [processNotices_isSome c now dl rd0.route rd0.notices m seen hex0]
        exact hex rd' (List.mem_cons_of_mem _ hm) nu' hn'
      · exact processNotices_wf c now dl rd0.route rd0.notices m seen hex0 hwf

theorem retireUnseen_wf (c : String) (seen snap : List String) :
    ∀ t : Metadata, wfMeta t → wfMeta (retireUnseen c seen snap t) := by
  induction snap with
  | nil => intro t hwf; exact hwf
  | cons k rest ih =>
      intro t hwf
      rw [retireUnseen_cons]
      by_cases hk : k ∈ seen
      · rw [if_pos hk]
        exact ih t hwf
      · rw [if_neg hk]
        exact ih _ (wf_markInactive t c _ _ hwf)

theorem retireUnseen_act_le (c : String) (seen snap : List String) :
    ∀ (t : Metadata) (r i : String),
      (mGet (retireUnseen c seen snap t) c r i).map Notice.isActive = some true →
      (mGet t c r i).map Notice.isActive = some true := by
  induction snap with
  | nil => intro t r i h; exact h
  | cons k rest ih =>
      intro t r i h
      rw [retireUnseen_cons] at h
      by_cases hk : k ∈ seen
      · rw [if_pos hk] at h
        exact ih t r i h
      · rw [if_neg hk] at h
        exact markInactive_act_le _ _ _ _ _ _ (ih _ r i h)

theorem retireUnseen_isSome (c : String) (seen snap : List String) :
    ∀ (t : Metadata) (r i : String),
      (mGet (retireUnseen c seen snap t) c r i).isSome = (mGet t c r i).isSome := by
  induction snap with
  | nil => intro t r i; rfl
  | cons k rest ih =>
      intro t r i
      rw [retireUnseen_cons]
      by_cases hk : k ∈ seen
      · rw [if_pos hk]
        exact ih t r i
      · rw [if_neg hk, ih _ r i, markInactive_isSome]

theorem retireUnseen_touchprop (c : String) (seen snap : List String) (now : Date) :
    ∀ (t : Metadata) (r i : String) (y : Notice),
      mGet t c r i = some y → y.lastSeenAt = some now →
      ∃ y', mGet (retireUnseen c seen snap t) c r i = some y'
        ∧ y'.lastSeenAt = some now := by
  induction snap with
  | nil => intro t r i y h hl; exact ⟨y, h, hl⟩
  | cons k rest ih =>
      intro t r i y h hl
      rw [retireUnseen_cons]
      by_cases hk : k ∈ seen
      · rw [if_pos hk]
        exact ih t r i y h hl
      · rw [if_neg hk]
        obtain ⟨y', hy', hl'⟩ := touchprop_pres_mark t c _ _ now r i y h hl
        exact ih _ r i y' hy' hl'

theorem aoi_pres_mark (t : Metadata) (c r0 i0 r i : String)
    (h : mGet t c r i = none ∨ ∃ y, mGet t c r i = some y ∧ y.isActive = false) :
    mGet (markInactive t c r0 i0).1 c r i = none
    ∨ ∃ y, mGet (markInactive t c r0 i0).1 c r i = some y ∧ y.isActive = false := by
  rcases h with hn | ⟨y, hy, hay⟩
  · left
    have hS := markInactive_isSome t c r0 i0 r i
    cases e : mGet (markInactive t c r0 i0).1 c r i with
    | none => rfl
    | some z =>
        rw [e, hn] at hS
        simp at hS
  · right
    exact ⟨y, markInactive_preserves_dead t c r0 i0 r i y hy hay, hay⟩

theorem aoi_kill (t : Metadata) (c r i : String) :
    mGet (markInactive t c r i).1 c r i = none
    ∨ ∃ y, mGet (markInactive t c r i).1 c r i = some y ∧ y.isActive = false := by
  cases e : mGet t c r i with
  | none =>
      left
      unfold markInactive
      rw [e]
      exact e
  | some y =>
      right
      exact ⟨{ y with isActive := false }, markInactive_kills t c r i y e, rfl⟩

theorem retireUnseen_pres_aoi (c : String) (seen snap : List String) :
    ∀ (t : Metadata) (r i : String),
      (mGet t c r i = none ∨ ∃ y, mGet t c r i = some y ∧ y.isActive = false) →
      (mGet (retireUnseen c seen snap t) c r i = none
       ∨ ∃ y, mGet (retireUnseen c seen snap t) c r i = some y ∧ y.isActive = false) := by
  induction snap with
  | nil => intro t r i h; exact h
  | cons k rest ih =>
      intro t r i h
      rw [retireUnseen_cons]
      by_cases hk : k ∈ seen
      · rw [if_pos hk]
        exact ih t r i h
      · rw [if_neg hk]
        exact ih _ r i (aoi_pres_mark t c _ _ r i h)

theorem retireUnseen_aoi (c : String) (seen snap : List String) :
    ∀ (t : Metadata) (k : String), k ∈ snap → k ∉ seen →
      (mGet (retireUnseen c seen snap t) c (decodeKey k).1 (decodeKey k).2 = none
       ∨ ∃ y, mGet (retireUnseen c seen snap t) c (decodeKey k).1 (decodeKey k).2 = some y
           ∧ y.isActive = false) := by
  induction snap with
  | nil => intro t k hk _; exact absurd hk (List.not_mem_nil _)
  | cons k0 rest ih =>
      intro t k hk hks
      rw [retireUnseen_cons]
      by_cases h0 : k0 ∈ seen
      · rw [if_pos h0]
        have hkr : k ∈ rest := by
          rcases List.mem_cons.mp hk with he | ht
          · exact absurd (he ▸ h0) hks
          · exact ht
        exact ih t k hkr hks
      · rw [if_neg h0]
        by_cases hkk : k = k0
        · subst hkk
          exact retireUnseen_pres_aoi c seen rest _ _ _ (aoi_kill t c _ _)
        · have hkr : k ∈ rest := by
            rcases List.mem_cons.mp hk with he | ht
            · exact absurd he hkk
            · exact ht
          exact ih _ k hkr hks

theorem retireUnseen_id (c : String) (seen snap : List String) :
    ∀ t : Metadata,
      (∀ k ∈ snap, k ∉ seen →
        (mGet t c (decodeKey k).1 (decodeKey k).2 = none
         ∨ ∃ y, mGet t c (decodeKey k).1 (decodeKey k).2 = some y ∧ y.isActive = false)) →
      retireUnseen c seen snap t = t := by
  induction snap with
  | nil => intro t _; rfl
  | cons k0 rest ih =>
      intro t h
      rw [retireUnseen_cons]
      by_cases hk : k0 ∈ seen
      · rw [if_pos hk]
        exact ih t (fun k hm hks => h k (List.mem_cons_of_mem _ hm) hks)
      · rw [if_neg hk]
        have hstep : (markInactive t c (decodeKey k0).1 (decodeKey k0).2).1 = t := by
          rcases h k0 (List.mem_cons_self _ _) hk with hn | ⟨y, hy, hay⟩
          · unfold markInactive
            rw [hn]
          · exact markInactive_self t c _ _ y hy hay
        rw [hstep]
        exact ih t (fun k hm hks => h k (List.mem_cons_of_mem _ hm) hks)

theorem innerFold_elim (r0 : String) (entries : RouteMap) (k : String) :
    ∀ acc : List String,
      k ∈ entries.foldl
        (fun acc2 ip =>
          if ip.2.isActive then setInsert acc2 (r0 ++ ":" ++ ip.1) else acc2) acc →
      k ∈ acc ∨ ∃ ip ∈ entries, ip.2.isActive = true ∧ k = r0 ++ ":" ++ ip.1 := by
  induction entries with
  | nil => intro acc h; exact Or.inl h
  | cons e rest ih =>
      intro acc h
      rw [List.foldl_cons] at h
      rcases ih _ h with hacc | hex
      · by_cases he : e.2.isActive = true
        · rw [if_pos he] at hacc
          rcases mem_setInsert_elim _ _ _ hacc with h1 | h2
          · exact Or.inl h1
          · exact Or.inr ⟨e, List.mem_cons_self _ _, he, h2⟩
        · rw [if_neg he] at hacc
          exact Or.inl hacc
      · obtain ⟨ip, hip, hact, hk⟩ := hex
        exact Or.inr ⟨ip, List.mem_cons_of_mem _ hip, hact, hk⟩

theorem outerFold_elim (cd : CompanyMap) (k : String) :
    ∀ acc : List String,
      k ∈ cd.foldl
        (fun acc rp =>
          rp.2.foldl
            (fun acc2 ip =>
              if ip.2.isActive then setInsert acc2 (rp.1 ++ ":" ++ ip.1) else acc2)
            acc) acc →
      k ∈ acc ∨ ∃ rp ∈ cd, ∃ ip ∈ rp.2, ip.2.isActive = true ∧ k = rp.1 ++ ":" ++ ip.1 := by
  induction cd with
  | nil => intro acc h; exact Or.inl h
  | cons e rest ih =>
      intro acc h
      rw [List.foldl_cons] at h
      rcases ih _ h with hacc | hex
      · rcases innerFold_elim e.1 e.2 k acc hacc with h1 | ⟨ip, hip, hact, hk⟩
        · exact Or.inl h1
        · exact Or.inr ⟨e, List.mem_cons_self _ _, ip, hip, hact, hk⟩
      · obtain ⟨rp, hrp, ip, hip, hact, hk⟩ := hex
        exact Or.inr ⟨rp, List.mem_cons_of_mem _ hrp, ip, hip, hact, hk⟩

theorem alGet_of_mem_nodup {α : Type} (l : List (String × α)) (k : String) (v : α)
    (hmem : (k, v) ∈ l) (hnd : (l.map Prod.fst).Nodup) : alGet l k = some v := by
  induction l with
  | nil => exact absurd hmem (List.not_mem_nil _)
  | cons p rest ih =>
      obtain ⟨k0, w0⟩ := p
      rw [List.map_cons, List.nodup_cons] at hnd
      rcases List.mem_cons.mp hmem with he | ht
      · injection he with h1 h2
        subst h1
        subst h2
        rw [alGet, if_pos rfl]
  
      · have hk0 : k0 ≠ k := by
          intro hkk
          subst hkk
          exact hnd.1 (List.mem_map.mpr ⟨(k0, v), ht, rfl⟩)
        rw [alGet, if_neg hk0]
        exact ih ht hnd.2

theorem getActiveNotices_strong (t : Metadata) (c : String) (hwf : wfMeta t) (k : String)
    (h : k ∈ getActiveNotices t c) :
    ∃ r i y, mGet t c r i = some y ∧ y.isActive = true ∧ k = r ++ ":" ++ i := by
  unfold getActiveNotices at h
  cases e1 : alGet t c with
  | none =>
      rw [e1] at h
      simp at h
  | some cd =>
      rw [e1] at h
      simp only [Option.getD_some] at h
      rcases outerFold_elim cd k [] h with hacc | ⟨rp, hrp, ip, hip, hact, hk⟩
      · exact absurd hacc (List.not_mem_nil _)
      · obtain ⟨hnd, hall⟩ := hwf
        obtain ⟨hndcd, hallcd⟩ := hall (c, cd) (alGet_mem t c cd e1)
        have h2 : alGet cd rp.1 = some rp.2 :=
          alGet_of_mem_nodup cd rp.1 rp.2 hrp hndcd
        have h3 : alGet rp.2 ip.1 = some ip.2 :=
          alGet_of_mem_nodup rp.2 ip.1 ip.2 hip (hallcd rp hrp)
        refine ⟨rp.1, ip.1, ip.2, ?_, hact, hk⟩
        rw [mGet, e1]
        simp [h2, h3]

theorem scrapeRun_id (c : String) (now : Date) (dl : String → String → Bool)
    (routes : List SourceRoute) (t : Metadata)
    (htp : ∀ rd ∈ routes, ∀ nu ∈ rd.notices,
      ∃ y, mGet t c rd.route nu.1 = some y ∧ y.lastSeenAt = some now)
    (haoi : ∀ k ∈ getActiveNotices t c,
      k ∉ routes.foldl
          (fun s rd => rd.notices.foldl (fun s2 nu => setInsert s2 (rd.route ++ ":" ++ nu.1)) s)
          ([] : List String) →
      (mGet t c (decodeKey k).1 (decodeKey k).2 = none
       ∨ ∃ y, mGet t c (decodeKey k).1 (decodeKey k).2 = some y ∧ y.isActive = false)) :
    (scrapeRun c now dl routes t).1 = t := by
  have hext : ∀ rd ∈ routes, ∀ nu ∈ rd.notices, (mGet t c rd.route nu.1).isSome = true := by
    intro rd hm nu hn
    obtain ⟨y, hy, _⟩ := htp rd hm nu hn
    rw [hy]
    rfl
  have h1 : (routes.foldl
      (fun acc rd => processNotices c now dl rd.route rd.notices acc.1 acc.2)
      (t, ([] : List String))).1 = t :=
    fold_id c now dl routes t [] htp
  have h2 : (routes.foldl
      (fun acc rd => processNotices c now dl rd.route rd.notices acc.1 acc.2)
      (t, ([] : List String))).2
      = routes.foldl
          (fun s rd => rd.notices.foldl (fun s2 nu => setInsert s2 (rd.route ++ ":" ++ nu.1)) s)
          [] :=
    fold_seen_eq c now dl routes t [] hext
  calc (scrapeRun c now dl routes t).1
      = retireUnseen c
          ((routes.foldl
            (fun acc rd => processNotices c now dl rd.route rd.notices acc.1 acc.2)
            (t, ([] : List String))).2)
          (getActiveNotices t c)
          ((routes.foldl
            (fun acc rd => processNotices c now dl rd.route rd.notices acc.1 acc.2)
            (t, ([] : List String))).1) := rfl
    _ = retireUnseen c
          (routes.foldl
            (fun s rd => rd.notices.foldl (fun s2 nu => setInsert s2 (rd.route ++ ":" ++ nu.1)) s)
            [])
          (getActiveNotices t c) t := by rw [h1, h2]
    _ = t := retireUnseen_id c _ _ t haoi

/-- C6 (amended): with an unchanged source response set and the same run
timestamp, the second reconciliation run is the identity on the persisted
state PROVIDED every reported notice already had a record at the start of
the first run and the store is well-formed (unique JSON object keys). In
general the claimed state identity fails only for brand-new notices: the
first run's insert leaves `lastSeenAt` absent and the second run sets it
to the run timestamp (see the counterexample); with no brand-new notices
the two runs touch every reported record to the same `lastSeenAt`, no
duplicate records are inserted, and the second run's retirement pass
finds every unseen previously-active key already handled by the first
run, so the state after the second run equals the state after the
first. -/
theorem c6_second_run_is_identity (c : String) (now : Date) (dl : String → String → Bool)
    (routes : List SourceRoute) (m : Metadata) (hwf : wfMeta m)
    (hex : ∀ rd ∈ routes, ∀ nu ∈ rd.notices, (mGet m c rd.route nu.1).isSome = true) :
    (scrapeRun c now dl routes ((scrapeRun c now dl routes m).1)).1
      = (scrapeRun c now dl routes m).1 := by
  rcases hP : routes.foldl
      (fun acc rd => processNotices c now dl rd.route rd.notices acc.1 acc.2)
      (m, ([] : List String)) with ⟨m1, S⟩
  have ht : (scrapeRun c now dl routes m).1
      = retireUnseen c S (getActiveNotices m c) m1 := by
    show retireUnseen c
        ((routes.foldl
          (fun acc rd => processNotices c now dl rd.route rd.notices acc.1 acc.2)
          (m, ([] : List String))).2)
        (getActiveNotices m c)
        ((routes.foldl
          (fun acc rd => processNotices c now dl rd.route rd.notices acc.1 acc.2)
          (m, ([] : List String))).1)
      = retireUnseen c S (getActiveNotices m c) m1
    rw [hP]
  have hact1 : ∀ r i, (mGet m1 c r i).map Notice.isActive
      = (mGet m c r i).map Notice.isActive := by
    intro r i
    have hh := fold_act c now dl routes m [] hex r i
    rw [hP] at hh
    exact hh
  have htouch1 : ∀ rd ∈ routes, ∀ nu ∈ rd.notices,
      ∃ y, mGet m1 c rd.route nu.1 = some y ∧ y.lastSeenAt = some now := by
    intro rd hm nu hn
    have hh := fold_touches c now dl routes m [] hex rd hm nu hn
    rw [hP] at hh
    exact hh
  have hwf1 : wfMeta m1 := by
    have hh := fold_wf c now dl routes m [] hex hwf
    rw [hP] at hh
    exact hh
  have hseen1 : S = routes.foldl
      (fun s rd => rd.notices.foldl (fun s2 nu => setInsert s2 (rd.route ++ ":" ++ nu.1)) s)
      [] := by
    have hh := fold_seen_eq c now dl routes m [] hex
    rw [hP] at hh
    exact hh
  have htoucht1 : ∀ rd ∈ routes, ∀ nu ∈ rd.notices,
      ∃ y, mGet (retireUnseen c S (getActiveNotices m c) m1) c rd.route nu.1 = some y
        ∧ y.lastSeenAt = some now := by
    intro rd hm nu hn
    obtain ⟨y, hy, hl⟩ := htouch1 rd hm nu hn
    exact retireUnseen_touchprop c S _ now m1 rd.route nu.1 y hy hl
  have hwft1 : wfMeta (retireUnseen c S (getActiveNotices m c) m1) :=
    retireUnseen_wf c S _ m1 hwf1
  rw [ht]
  apply scrapeRun_id c now dl routes _ htoucht1
  intro k hk hkC
  obtain ⟨r, i, y, hy, hacty, hkey⟩ :=
    getActiveNotices_strong (retireUnseen c S (getActiveNotices m c) m1) c hwft1 k hk
  have hat1 : (mGet (retireUnseen c S (getActiveNotices m c) m1) c r i).map Notice.isActive
      = some true := by
    rw [hy]
    simp [hacty]
  have ham1 : (mGet m1 c r i).map Notice.isActive = some true :=
    retireUnseen_act_le c S _ m1 r i hat1
  have ham : (mGet m c r i).map Notice.isActive = some true := by
    rw [← hact1 r i]
    exact ham1
  obtain ⟨x, hx, hactx⟩ : ∃ x, mGet m c r i = some x ∧ x.isActive = true := by
    cases e : mGet m c r i with
    | none => rw [e] at ham; simp at ham
    | some x =>
        rw [e] at ham
        simp at ham
        exact ⟨x, rfl, ham⟩
  have hksnap1 : k ∈ getActiveNotices m c :=
    hkey ▸ active_mem_getActiveNotices m c r i x hx hactx
  have hkS : k ∉ S := by
    rw [hseen1]
    exact hkC
  exact retireUnseen_aoi c S (getActiveNotices m c) m1 k hksnap1 hkS

theorem c6_witness :
    wfMeta [("KMB", [("1", [("A", sampleNotice "1" "A" true)])])]
    ∧ (∀ rd ∈ [({ route := "1", notices := [("A", "u")] } : SourceRoute)],
        ∀ nu ∈ rd.notices,
        (mGet [("KMB", [("1", [("A", sampleNotice "1" "A" true)])])]
          "KMB" rd.route nu.1).isSome = true)
    ∧ (scrapeRun "KMB" sampleDate (fun _ _ => true)
        [({ route := "1", notices := [("A", "u")] } : SourceRoute)]
        ((scrapeRun "KMB" sampleDate (fun _ _ => true)
          [({ route := "1", notices := [("A", "u")] } : SourceRoute)]
          [("KMB", [("1", [("A", sampleNotice "1" "A" true)])])]).1)).1
      = (scrapeRun "KMB" sampleDate (fun _ _ => true)
          [({ route := "1", notices := [("A", "u")] } : SourceRoute)]
          [("KMB", [("1", [("A", sampleNotice "1" "A" true)])])]).1 :=
  ⟨by decide, by decide,
    c6_second_run_is_identity "KMB" sampleDate (fun _ _ => true)
      [({ route := "1", notices := [("A", "u")] } : SourceRoute)]
      [("KMB", [("1", [("A", sampleNotice "1" "A" true)])])]
      (by decide) (by decide)⟩
